import Mathlib

/-!
# Write-intent tracking of the durability module (`src/mongo/db/dur_commitjob.cpp`)

A shallow embedding of `dur_commitjob.cpp` on an LP64 platform: addresses and
`size_t` values are naturals below `2^64`, `unsigned` values are naturals
below `2^32`, `int` values are integers in `[-2^31, 2^31)`.  Every store into
a machine integer is written with its explicit reduction.

The header `dur_commitjob.h` (the declaration of `WriteIntent`, of
`Already<>::checkAndSet` and of `Writes::insertWriteIntent`) is not among the
sources; what is taken from it is marked in the doc comment of the definition
concerned.
-/

namespace Dur

/-! ## Machine integers -/

/-- Modulus of `unsigned` (32 bits). -/
def U32 : Nat := 4294967296

/-- Modulus of `size_t` (64 bits). -/
def SIZE : Nat := 18446744073709551616

/-- Conversion of an `unsigned` value to `int` (two's complement). -/
def toInt32 (u : Nat) : Int :=
  if u % U32 < 2147483648 then ((u % U32 : Nat) : Int) else ((u % U32 : Nat) : Int) - 4294967296

/-- Conversion of an integer value to `unsigned`. -/
def toU32 (v : Int) : Nat := (v % 4294967296).toNat

/-- The bit pattern `x & ~0xfff`: `x` rounded down to a multiple of 4096. -/
def maskPage (x : Nat) : Nat := x - x % 4096

/-! ## WriteIntent -/

/-- Modelled from the spec: `struct WriteIntent` of `dur_commitjob.h`, whose
declaration is missing.  The spec's Interval is `[start, start + length)` with
`end = start + length`; `absorb` in the source shows the two fields, `p` (the
end of the range: `absorb` takes the larger `p` as the new end) and `len`
(an `unsigned`: `declareWriteIntent(void*, unsigned len)` builds
`WriteIntent(p, len)`). -/
structure WriteIntent where
  /-- End address of the range. -/
  p : Nat
  /-- Length of the range in bytes, an `unsigned`. -/
  len : Nat
deriving DecidableEq, Repr, Inhabited

namespace WriteIntent

/-- Modelled from the spec: the constructor `WriteIntent(void* a, unsigned b)`
of the range `[a, a + b)`. -/
def make (a b : Nat) : WriteIntent := { p := a + b, len := b }

/-- Modelled from the spec: accessor `start()`, with `end = start + length`. -/
def start (w : WriteIntent) : Nat := w.p - w.len

/-- Modelled from the spec: accessor `end()`. -/
def «end» (w : WriteIntent) : Nat := w.p

/-- Modelled from the spec: accessor `length()`. -/
def length (w : WriteIntent) : Nat := w.len

/-- Modelled from the spec: `overlaps(other)`, "true iff the two half-open
ranges intersect". -/
def overlaps (w other : WriteIntent) : Bool :=
  decide (w.start < other.end ∧ other.start < w.end)

/-- Modelled from the spec: `contains(other)`, "true iff `other` lies entirely
within `self`". -/
def contains (w other : WriteIntent) : Bool :=
  decide (w.start ≤ other.start ∧ other.end ≤ w.end)

/-- The intent is a value the program can hold: its length is an `unsigned`
and its start `p - len` is an address (no wrap below zero). -/
def WF (w : WriteIntent) : Prop := w.len < U32 ∧ w.len ≤ w.p

instance (w : WriteIntent) : Decidable w.WF := by
  unfold WF; infer_instance

/-- `WriteIntent::absorb` (lines 78-86), without its two `dassert`s:
```
void* newStart = min(start(), other.start());
p = max(p, other.p);
len = (char*)p - (char*)newStart;
```
The pointer difference is stored into the `unsigned` field `len`. -/
def absorb (w other : WriteIntent) : WriteIntent :=
  let newStart := min w.start other.start
  let p := max w.p other.p
  { p := p, len := (p - newStart) % U32 }

/-- `WriteIntent::absorb` as a debug build runs it: `none` when
`dassert(overlaps(other))` or `dassert(contains(other))` fails. -/
def absorbChecked (w other : WriteIntent) : Option WriteIntent :=
  if w.overlaps other then
    let r := w.absorb other
    if r.contains other then some r else none
  else none

end WriteIntent

/-! ## The commit job and the state around it -/

/-- Handle of a durable operation (`shared_ptr<DurOp>`); the operations
themselves are external. -/
abbrev DurOp := Nat

/-- Modelled from the spec: the Deduplicating Range Set `Already<>` of
`dur_commitjob.h`, whose declaration is missing: the "set of ranges already
recorded during the current commit interval", each range as the
`(p, len)` it was noted with. -/
abbrev Already := List (Nat × Int)

/-- What is written to the log. -/
inductive LogEvent where
  /-- The line "DR102 too much data written uncommitted", with `_bytes`. -/
  | dr102 (bytes : Nat)
  /-- A call of `printStackTrace()`. -/
  | stackTrace
  /-- The line "debug nsincecommitifneeded:" of a `_DEBUG` build. -/
  | debugNSince (n bytes : Nat)
  /-- The line "_DEBUG printing stack given high nsinccommitifneeded number". -/
  | debugStack
deriving DecidableEq, Repr

/-- Class `Writes`: the fields that `Writes::clear` and `CommitJob` use. -/
structure Writes where
  /-- Deduplicating Range Set. -/
  _alreadyNoted : Already
  /-- Coalesced Intent Collection. -/
  _intents : List WriteIntent
  /-- Durable-Operation Queue, in `push_back` order. -/
  _durOps : List DurOp
deriving DecidableEq, Repr

/-- Class `CommitJob`: the members the source file reads and writes. -/
structure CommitJob where
  _hasWritten : Bool
  _wi : Writes
  /-- Counter `_bytes` (uncommittedBytes), a `size_t`. -/
  _bytes : Nat
  _nSinceCommitIfNeededCall : Nat
  _commitNumber : Nat
deriving DecidableEq, Repr

/-- The singleton `commitJob` with the globals and function-local statics of
the file, the external values it reads and a record of what it emits. -/
structure DurState where
  commitJob : CommitJob
  /-- Global `size_t privateMapBytes`. -/
  privateMapBytes : Nat
  /-- Static `size_t lastPos` of `CommitJob::note`. -/
  lastPos : Nat
  /-- Static `time_t lastComplain` of `CommitJob::note`. -/
  lastComplain : Int
  /-- Static `unsigned nComplains` of `CommitJob::note`. -/
  nComplains : Nat
  /-- Statistic `stats.curr->_commits`, the spec's "commit-count statistic"; its
  declaration (`dur_stats.h`) is not among the sources, so it is a plain
  counter here. -/
  commits : Nat
  /-- Value that `_notify.now()` returns. -/
  notifyNow : Nat
  /-- Value that `time(0)` returns. -/
  time0 : Int
  /-- Counter `notesThisLock` (touched in `DEV` builds only). -/
  notesThisLock : Nat
  /-- Log output, oldest first. -/
  log : List LogEvent
  /-- History of the calls of `CommitJob::note`: the arguments `(p, len)` of
  each call, oldest first.  Nothing reads it. -/
  noteCalls : List (Nat × Int)
deriving DecidableEq, Repr

/-- What the file takes from headers that are not among the sources. -/
structure Header where
  /-- Constant `UncommittedBytesLimit`. -/
  UncommittedBytesLimit : Nat
  /-- Whether `_DEBUG` is defined (which also enables `DEV`). -/
  debug : Bool
  /-- `Already<>::checkAndSet(p, len)`: the report and the marked set. -/
  checkAndSet : Already → Nat → Int → Bool × Already
  /-- `Writes::insertWriteIntent(p, len)` on `_intents`. -/
  insertWriteIntent : List WriteIntent → Nat → Int → List WriteIntent

/-- `Writes::clear` (lines 88-98); the lock assertions are not modelled. -/
def Writes.clear (_w : Writes) : Writes :=
  { _alreadyNoted := [], _intents := [], _durOps := [] }

/-- `CommitJob::CommitJob` (lines 136-140). -/
def CommitJob.init : CommitJob :=
  { _hasWritten := false
    _wi := { _alreadyNoted := [], _intents := [], _durOps := [] }
    _bytes := 0
    _nSinceCommitIfNeededCall := 0
    _commitNumber := 0 }

/-- State at process start: the constructed `commitJob`, zero-initialised
globals and statics, and the given clock and commit-sequence readings. -/
def DurState.init (time0 : Int) (notifyNow : Nat) : DurState :=
  { commitJob := CommitJob.init
    privateMapBytes := 0
    lastPos := 0
    lastComplain := 0
    nComplains := 0
    commits := 0
    notifyNow := notifyNow
    time0 := time0
    notesThisLock := 0
    log := []
    noteCalls := [] }

/-- `CommitJob::noteOp` (lines 111-118); the lock, `dassert(cmdLine.dur)` and
`cc().writeHappened()` are external. -/
def CommitJob.noteOp (s : DurState) (op : DurOp) : DurState :=
  { s with commitJob :=
      { s.commitJob with
        _hasWritten := true
        _wi := { s.commitJob._wi with _durOps := s.commitJob._wi._durOps ++ [op] } } }

/-- `CommitJob::beginCommit` (lines 122-126). -/
def CommitJob.beginCommit (s : DurState) : DurState :=
  { s with
    commitJob := { s.commitJob with _commitNumber := s.notifyNow }
    commits := s.commits + 1 }

/-- `CommitJob::reset` (lines 128-134):
```
_hasWritten = false;
_wi.clear();
privateMapBytes += _bytes;
_bytes = 0;
_nSinceCommitIfNeededCall = 0;
```
-/
def CommitJob.reset (s : DurState) : DurState :=
  { s with
    commitJob :=
      { s.commitJob with
        _hasWritten := false
        _wi := s.commitJob._wi.clear
        _bytes := 0
        _nSinceCommitIfNeededCall := 0 }
    privateMapBytes := (s.privateMapBytes + s.commitJob._bytes) % SIZE }

/-- The `_DEBUG` block of `CommitJob::note` (lines 190-201): the log lines it
adds for the incremented counter `n` and the byte count. -/
def debugLines (n bytes : Nat) : List LogEvent :=
  if 80 ≤ n then
    if n % 40 = 0 then
      LogEvent.debugNSince n bytes ::
        (if n = 120 ∨ n = 1200 then [LogEvent.debugStack, LogEvent.stackTrace] else [])
    else []
  else []

/-- The throttled warning of `CommitJob::note` (lines 203-213), run when
`_bytes > UncommittedBytesLimit * 3`:
```
if( ++nComplains < 100 || time(0) - lastComplain >= 60 ) {
    lastComplain = time(0);
    warning() << "DR102 too much data written uncommitted " ...
    if( nComplains < 10 || nComplains % 10 == 0 ) printStackTrace();
}
```
-/
def CommitJob.complain (s : DurState) : DurState :=
  let nC : Nat := (s.nComplains + 1) % U32
  if nC < 100 ∨ s.time0 - s.lastComplain ≥ 60 then
    { s with
      nComplains := nC
      lastComplain := s.time0
      log := s.log ++ (LogEvent.dr102 s.commitJob._bytes ::
                (if nC < 10 ∨ nC % 10 = 0 then [LogEvent.stackTrace] else [])) }
  else { s with nComplains := nC }

/-- The page-byte accounting of `CommitJob::note` (lines 182-216), run after
the intent was inserted:
```
size_t x = ((size_t) p) & ~0xfff;
if( x != lastPos ) {
    lastPos = x;
    unsigned b = (len+4095) & ~0xfff;
    _bytes += b;
    ... _DEBUG block ...
    if (_bytes > UncommittedBytesLimit * 3) { ... throttled warning ... }
}
```
-/
def CommitJob.countBytes (H : Header) (s : DurState) (p : Nat) (len : Int) : DurState :=
  let x : Nat := maskPage p
  if x ≠ s.lastPos then
    let b : Nat := maskPage (toU32 (len + 4095))
    let bytes : Nat := (s.commitJob._bytes + b) % SIZE
    let nSince : Nat :=
      if H.debug then s.commitJob._nSinceCommitIfNeededCall + 1
      else s.commitJob._nSinceCommitIfNeededCall
    let s1 : DurState :=
      { s with
        commitJob := { s.commitJob with _bytes := bytes, _nSinceCommitIfNeededCall := nSince }
        lastPos := x
        log := s.log ++ (if H.debug then debugLines nSince bytes else []) }
    if bytes > H.UncommittedBytesLimit * 3 then CommitJob.complain s1 else s1
  else s

/-- `CommitJob::note(void* p, int len)` (lines 142-218):
```
if( !_wi._alreadyNoted.checkAndSet(p, len) ) {
    if( !_hasWritten ) _hasWritten = true;
    _wi.insertWriteIntent(p, len);
    { ... page-byte accounting ... }
}
```
The call is first appended to the history `noteCalls`. -/
def CommitJob.note (H : Header) (s : DurState) (p : Nat) (len : Int) : DurState :=
  let s0 : DurState := { s with noteCalls := s.noteCalls ++ [(p, len)] }
  let r : Bool × Already := H.checkAndSet s.commitJob._wi._alreadyNoted p len
  if r.1 then
    { s0 with
      commitJob := { s.commitJob with _wi := { s.commitJob._wi with _alreadyNoted := r.2 } } }
  else
    CommitJob.countBytes H
      { s0 with
        commitJob :=
          { s.commitJob with
            _hasWritten := true
            _wi := { s.commitJob._wi with
                     _alreadyNoted := r.2
                     _intents := H.insertWriteIntent s.commitJob._wi._intents p len } } }
      p len

/-! ## The helpers of the missing header, as the spec describes them -/

/-- Modelled from the spec: `Already<>::checkAndSet(p, len)` of
`dur_commitjob.h`, which is missing: the "check-and-mark" of the
Deduplicating Range Set.  It reports `true` when the range is "already fully
recorded", here when a range with the same start and at least this length was
marked; otherwise it marks the range and reports `false`. -/
def Already.checkAndSet (a : Already) (p : Nat) (len : Int) : Bool × Already :=
  if a.any (fun e => decide (e.1 = p ∧ len ≤ e.2)) then (true, a) else (false, (p, len) :: a)

/-- Modelled from the spec: the merging insertion of the Coalesced Intent
Collection ("insert `range` ..., merging with any existing overlapping entry
via `merge`"): every stored entry that overlaps the incoming range absorbs it,
and the grown range goes on through the rest of the collection. -/
def Writes.mergeInto : List WriteIntent → WriteIntent → List WriteIntent
  | [], w => [w]
  | x :: rest, w =>
    if x.overlaps w then Writes.mergeInto rest (x.absorb w) else x :: Writes.mergeInto rest w

/-- Modelled from the spec: `Writes::insertWriteIntent(void* p, int len)` of
`dur_commitjob.h`, which is missing: the range `WriteIntent(p, len)` is
inserted into the collection with merging. -/
def Writes.insertWriteIntent (xs : List WriteIntent) (p : Nat) (len : Int) : List WriteIntent :=
  Writes.mergeInto xs (WriteIntent.make p (toU32 len))

/-- The header as the spec describes it, for a given `UncommittedBytesLimit`
and build kind. -/
def specHeader (limit : Nat) (debug : Bool) : Header :=
  { UncommittedBytesLimit := limit
    debug := debug
    checkAndSet := Already.checkAndSet
    insertWriteIntent := Writes.insertWriteIntent }

/-! ## The per-thread buffer -/

/-- Capacity `ThreadLocalIntents::N`. -/
def N : Nat := 21

/-- `struct ThreadLocalIntents` (lines 30-38): the array `i[N]` and the
count `n`. -/
structure ThreadLocalIntents where
  /-- The array `i`, of `N` slots. -/
  i : List WriteIntent
  n : Nat
deriving DecidableEq, Repr

/-- The constructor `ThreadLocalIntents() : n(0)`; the slots hold
default-constructed intents. -/
def ThreadLocalIntents.init : ThreadLocalIntents :=
  { i := List.replicate N { p := 0, len := 0 }, n := 0 }

/-- The arguments `(i[j].start(), i[j].length())` that `unspool` passes to
`CommitJob::note(void*, int)` for a buffered intent. -/
def noteArgs (w : WriteIntent) : Nat × Int := (w.start, toInt32 w.length)

/-- `ThreadLocalIntents::unspool` (lines 44-53):
```
if( n ) {
    DEV notesThisLock += n;
    for( int j = 0; j < n; j++ )
        commitJob.note(i[j].start(), i[j].length());
    n = 0;
}
```
The loop runs over the slots `i[0..n)`. -/
def ThreadLocalIntents.unspool (H : Header) (t : ThreadLocalIntents) (s : DurState) :
    ThreadLocalIntents × DurState :=
  if t.n ≠ 0 then
    let s1 : DurState :=
      if H.debug then { s with notesThisLock := (s.notesThisLock + t.n) % U32 } else s
    ({ t with n := 0 },
     (t.i.take t.n).foldl (fun st w => CommitJob.note H st (noteArgs w).1 (noteArgs w).2) s1)
  else (t, s)

/-- `ThreadLocalIntents::push` (lines 39-43):
```
if( n == 21 ) unspool();
i[n++] = x;
```
The result is `none` when the store `i[n]` is outside the array. -/
def ThreadLocalIntents.push (H : Header) (t : ThreadLocalIntents) (s : DurState)
    (x : WriteIntent) : Option (ThreadLocalIntents × DurState) :=
  let r : ThreadLocalIntents × DurState :=
    if t.n = 21 then ThreadLocalIntents.unspool H t s else (t, s)
  if r.1.n < N then some ({ i := r.1.i.set r.1.n x, n := r.1.n + 1 }, r.2) else none

/-- An operation on a per-thread buffer. -/
inductive BufOp where
  | push (x : WriteIntent)
  | unspool
deriving DecidableEq, Repr

/-- One operation on the buffer and the shared state. -/
def BufOp.step (H : Header) (c : ThreadLocalIntents × DurState) :
    BufOp → Option (ThreadLocalIntents × DurState)
  | BufOp.push x => ThreadLocalIntents.push H c.1 c.2 x
  | BufOp.unspool => some (ThreadLocalIntents.unspool H c.1 c.2)

/-- A sequence of operations, in order; `none` once a store went out of
bounds. -/
def runBuf (H : Header) :
    List BufOp → ThreadLocalIntents × DurState → Option (ThreadLocalIntents × DurState)
  | [], c => some c
  | op :: ops, c =>
    match BufOp.step H c op with
    | some c1 => runBuf H ops c1
    | none => none

/-- The ranges pushed by a sequence of operations, in push order. -/
def pushedOf : List BufOp → List WriteIntent
  | [] => []
  | BufOp.push x :: ops => x :: pushedOf ops
  | BufOp.unspool :: ops => pushedOf ops

/-- The current contents `i[0..n)` of a buffer. -/
def ThreadLocalIntents.contents (t : ThreadLocalIntents) : List WriteIntent := t.i.take t.n

/-! ## Operations on the shared aggregate -/

/-- An operation on the commit job. -/
inductive AggOp where
  | note (p : Nat) (len : Int)
  | noteOp (op : DurOp)
  | beginCommit
  | reset
  | unspool (t : ThreadLocalIntents)
  /-- The environment moves the clock and the commit-sequence generator. -/
  | env (time0 : Int) (notifyNow : Nat)
deriving DecidableEq, Repr

/-- One operation on the commit job. -/
def AggOp.step (H : Header) (s : DurState) : AggOp → DurState
  | AggOp.note p len => CommitJob.note H s p len
  | AggOp.noteOp op => CommitJob.noteOp s op
  | AggOp.beginCommit => CommitJob.beginCommit s
  | AggOp.reset => CommitJob.reset s
  | AggOp.unspool t => (ThreadLocalIntents.unspool H t s).2
  | AggOp.env t n => { s with time0 := t, notifyNow := n }

/-- A sequence of operations on the commit job, in order. -/
def runAgg (H : Header) (ops : List AggOp) (s : DurState) : DurState :=
  ops.foldl (AggOp.step H) s

/-! ## States used as concrete inputs -/

/-- The state after `note(4096, 8)` at process start, for the header of the
spec with `UncommittedBytesLimit = 100`. -/
def exNoted : DurState := CommitJob.note (specHeader 100 false) (DurState.init 0 0) 4096 8

/-- A state at process start but with `_bytes = 2^64 - 4096`. -/
def exBytesHigh : DurState :=
  { DurState.init 0 0 with commitJob := { CommitJob.init with _bytes := 18446744073709547520 } }

/-- A state at process start but with `privateMapBytes = 2^64 - 4096` and
`_bytes = 8192`. -/
def exTotalHigh : DurState :=
  { DurState.init 0 0 with
    privateMapBytes := 18446744073709547520
    commitJob := { CommitJob.init with _bytes := 8192 } }

/-- A buffer holding the one range `[4096, 4104)`. -/
def exBuffer : ThreadLocalIntents :=
  { i := ThreadLocalIntents.init.i.set 0 (WriteIntent.make 4096 8), n := 1 }

/-- The buffer invariant: `N` slots, count at most `N`. -/
def ThreadLocalIntents.Inv (t : ThreadLocalIntents) : Prop := t.i.length = N ∧ t.n ≤ N

/-- The invariant behind the flush: a non-empty dedup set implies that
`_hasWritten` is set. -/
def DedupImpliesWritten (s : DurState) : Prop :=
  s.commitJob._wi._alreadyNoted ≠ [] → s.commitJob._hasWritten = true

/-- Whether a log event is the warning "DR102 too much data written
uncommitted". -/
def LogEvent.isWarning : LogEvent → Bool
  | LogEvent.dr102 _ => true
  | _ => false

/-- Number of DR102 warnings in a log. -/
def nWarnings (log : List LogEvent) : Nat := log.countP LogEvent.isWarning

/-- The state of `CommitJob::note` after `_hasWritten = true` and
`_wi.insertWriteIntent(p, len)`, where the page-byte accounting starts. -/
def CommitJob.inserted (H : Header) (s : DurState) (p : Nat) (len : Int) : DurState :=
  { s with
    noteCalls := s.noteCalls ++ [(p, len)]
    commitJob :=
      { s.commitJob with
        _hasWritten := true
        _wi := { s.commitJob._wi with
                 _alreadyNoted := (H.checkAndSet s.commitJob._wi._alreadyNoted p len).2
                 _intents := H.insertWriteIntent s.commitJob._wi._intents p len } } }

/-- The operations passed to `noteOp` in a sequence of operations on the
commit job, in call order. -/
def noteOpsOf : List AggOp → List DurOp
  | [] => []
  | AggOp.noteOp op :: ops => op :: noteOpsOf ops
  | _ :: ops => noteOpsOf ops

/-- The state of the page-byte accounting on a new page after `lastPos = x`,
`_bytes += b` and the `_DEBUG` block, where the budget check starts. -/
def CommitJob.counted (H : Header) (s : DurState) (p : Nat) (len : Int) : DurState :=
  { s with
    commitJob :=
      { s.commitJob with
        _bytes := (s.commitJob._bytes + maskPage (toU32 (len + 4095))) % SIZE
        _nSinceCommitIfNeededCall :=
          if H.debug then s.commitJob._nSinceCommitIfNeededCall + 1
          else s.commitJob._nSinceCommitIfNeededCall }
    lastPos := maskPage p
    log := s.log ++
      (if H.debug then
        debugLines
          (if H.debug then s.commitJob._nSinceCommitIfNeededCall + 1
           else s.commitJob._nSinceCommitIfNeededCall)
          ((s.commitJob._bytes + maskPage (toU32 (len + 4095))) % SIZE)
       else []) }

/-- The state after `k` recorded notes of one byte on the pages `4096`,
`8192`, ..., from process start with the clock at `0` and
`UncommittedBytesLimit = 0`: every one of the notes is a byte-budget breach. -/
def exBreaches (k : Nat) : DurState :=
  runAgg (specHeader 0 false) ((List.range k).map (fun j => AggOp.note (4096 * (j + 1)) 1))
    (DurState.init 0 0)

/-- A state at process start but with `nComplains = 2^32 - 1`: the breach
counter after `2^32 - 1` breaches. -/
def exCounterHigh : DurState := { DurState.init 0 0 with nComplains := 4294967295 }

/-- The state after 100 breaches, with the clock moved on by 60 seconds. -/
def exAfterCooldown : DurState := AggOp.step (specHeader 0 false) (exBreaches 100) (AggOp.env 60 0)

/-- The state `exNoted` with other warning counters and another clock
reading. -/
def exNotedLater : DurState :=
  { exNoted with nComplains := 150, lastComplain := 7, time0 := 1000 }

/-- The state after `note(4096, 8)` at process start, for the header of the
spec with `UncommittedBytesLimit = 0`: `_bytes = 4096` is over three times the
limit and the remembered page is `4096`. -/
def exOverBudget : DurState := CommitJob.note (specHeader 0 false) (DurState.init 0 0) 4096 8

/-- The amount that `CommitJob::note(p, len)` adds to `_bytes` in state `s`:
the `b` of `_bytes += b` when that statement runs, and 0 when it does not. -/
def CommitJob.added (H : Header) (s : DurState) (p : Nat) (len : Int) : Nat :=
  if (H.checkAndSet s.commitJob._wi._alreadyNoted p len).1 then 0
  else if maskPage p ≠ s.lastPos then maskPage (toU32 (len + 4095)) else 0

/-- The amounts that the notes of an unspool loop add to `_bytes`, summed. -/
def addedByNotes (H : Header) : List WriteIntent → DurState → Nat
  | [], _ => 0
  | w :: ws, s =>
    CommitJob.added H s (noteArgs w).1 (noteArgs w).2
      + addedByNotes H ws (CommitJob.note H s (noteArgs w).1 (noteArgs w).2)

/-- The amount that one operation on the commit job adds to `_bytes` through
its calls of `note`. -/
def AggOp.added (H : Header) (s : DurState) : AggOp → Nat
  | AggOp.note p len => CommitJob.added H s p len
  | AggOp.unspool t =>
    if t.n ≠ 0 then
      addedByNotes H (t.i.take t.n)
        (if H.debug then { s with notesThisLock := (s.notesThisLock + t.n) % U32 } else s)
    else 0
  | _ => 0

/-- The total of all amounts that the calls of `note` in a sequence of
operations add to `_bytes`. -/
def totalAdded (H : Header) : List AggOp → DurState → Nat
  | [], _ => 0
  | op :: ops, s => AggOp.added H s op + totalAdded H ops (AggOp.step H s op)

/-- The counted bytes: `privateMapBytes + _bytes`. -/
def DurState.countedBytes (s : DurState) : Nat := s.privateMapBytes + s.commitJob._bytes

/-! ## Several threads -/

/-- Thread `k` of the threads with the buffers `bufs` runs one buffer
operation on its own buffer and the shared state; `none` when there is no such
thread or a store went out of bounds.  A `push` touches the thread's buffer
only, and an `unspool` runs wholly under `groupCommitMutex`, so the steps of
different threads interleave as whole operations. -/
def stepAt (H : Header) :
    List ThreadLocalIntents → Nat → BufOp → DurState → Option (List ThreadLocalIntents × DurState)
  | [], _, _, _ => none
  | t :: ts, 0, op, s => (BufOp.step H (t, s) op).map (fun r => (r.1 :: ts, r.2))
  | t :: ts, k + 1, op, s => (stepAt H ts k op s).map (fun r => (t :: r.1, r.2))

/-- An interleaving: the operations of the threads in the order in which they
run, each with the number of its thread. -/
def runThreads (H : Header) :
    List (Nat × BufOp) → List ThreadLocalIntents × DurState →
      Option (List ThreadLocalIntents × DurState)
  | [], c => some c
  | e :: es, c =>
    match stepAt H c.1 e.1 e.2 c.2 with
    | some c1 => runThreads H es c1
    | none => none

/-- The ranges pushed in an interleaving, by all threads. -/
def pushedBy (sched : List (Nat × BufOp)) : List WriteIntent := pushedOf (sched.map Prod.snd)

/-- The ranges that the buffers of the threads hold. -/
def buffered : List ThreadLocalIntents → List WriteIntent
  | [] => []
  | t :: ts => t.contents ++ buffered ts

/-- A range as `declareWriteIntent` stages it: well formed and not empty. -/
def WriteIntent.Proper (w : WriteIntent) : Prop := w.WF ∧ 0 < w.len

/-- The dedup set and the intent collection hold exactly the ranges `noted`,
in the order in which they were noted. -/
def HoldsNoted (s : DurState) (noted : List WriteIntent) : Prop :=
  s.commitJob._wi._intents = noted ∧
  s.commitJob._wi._alreadyNoted = (noted.map noteArgs).reverse

/-- An interleaving of two threads: each pushes two ranges and unspools. -/
def exSchedule : List (Nat × BufOp) :=
  [(0, BufOp.push (WriteIntent.make 4096 8)), (1, BufOp.push (WriteIntent.make 8192 16)),
   (1, BufOp.push (WriteIntent.make 100 4)), (0, BufOp.push (WriteIntent.make 4104 8)),
   (1, BufOp.unspool), (0, BufOp.unspool)]

instance (w : WriteIntent) : Decidable w.Proper := by
  unfold WriteIntent.Proper; infer_instance

/-- The address `a` lies in one of the ranges `ws`. -/
def Covered (ws : List WriteIntent) (a : Nat) : Prop := ∃ w ∈ ws, w.start ≤ a ∧ a < w.end

/-! ## Facts about `absorb` -/

theorem WriteIntent.absorb_end (a b : WriteIntent) : (a.absorb b).end = max a.end b.end := rfl

theorem WriteIntent.absorb_len (a b : WriteIntent) :
    (a.absorb b).length = (max a.end b.end - min a.start b.start) % U32 := rfl

/-- When the merged span fits an `unsigned`, `absorb` yields the bounding
interval. -/
theorem WriteIntent.absorb_exact (a b : WriteIntent)
    (hfit : max a.end b.end - min a.start b.start < U32) :
    (a.absorb b).start = min a.start b.start ∧
    (a.absorb b).end = max a.end b.end ∧
    (a.absorb b).length = (a.absorb b).end - (a.absorb b).start ∧
    (a.absorb b).contains a = true ∧ (a.absorb b).contains b = true := by
  have hlen : (a.absorb b).len = max a.p b.p - min (a.p - a.len) (b.p - b.len) := by
    simp only [WriteIntent.absorb]
    exact Nat.mod_eq_of_lt hfit
  simp only [WriteIntent.start, WriteIntent.end] at hfit
  have hp : (a.absorb b).p = max a.p b.p := rfl
  simp only [WriteIntent.contains, WriteIntent.start, WriteIntent.end, WriteIntent.length,
    decide_eq_true_eq, hlen, hp]
  clear hlen hp hfit
  have hsa : a.p - a.len ≤ a.p := Nat.sub_le _ _
  have hsb : b.p - b.len ≤ b.p := Nat.sub_le _ _
  generalize a.p - a.len = sa at hsa ⊢
  generalize b.p - b.len = sb at hsb ⊢
  refine ⟨by omega, trivial, by omega, ⟨by omega, by omega⟩, by omega, by omega⟩

/-- Two overlapping intents span at most the sum of their lengths. -/
theorem WriteIntent.span_le_of_overlaps (a b : WriteIntent) (ha : a.WF) (hb : b.WF)
    (ho : a.overlaps b = true) :
    max a.end b.end - min a.start b.start ≤ a.length + b.length ∧
    max a.length b.length ≤ max a.end b.end - min a.start b.start := by
  unfold WriteIntent.overlaps at ho
  unfold WriteIntent.WF at ha hb
  unfold WriteIntent.start WriteIntent.end WriteIntent.length at *
  simp only [decide_eq_true_eq] at ho
  omega

/-! ## Facts about `note` and the per-thread buffer -/

theorem CommitJob.complain_noteCalls (s : DurState) :
    (CommitJob.complain s).noteCalls = s.noteCalls := by
  unfold CommitJob.complain
  dsimp only
  split <;> rfl

theorem CommitJob.countBytes_noteCalls (H : Header) (s : DurState) (p : Nat) (len : Int) :
    (CommitJob.countBytes H s p len).noteCalls = s.noteCalls := by
  unfold CommitJob.countBytes
  dsimp only
  split
  · split
    · rw [CommitJob.complain_noteCalls]
    · rfl
  · rfl

/-- Every call of `note` adds exactly its own arguments to the history. -/
theorem CommitJob.note_noteCalls (H : Header) (s : DurState) (p : Nat) (len : Int) :
    (CommitJob.note H s p len).noteCalls = s.noteCalls ++ [(p, len)] := by
  unfold CommitJob.note
  dsimp only
  split
  · rfl
  · rw [CommitJob.countBytes_noteCalls]

theorem foldl_note_noteCalls (H : Header) (ws : List WriteIntent) (s : DurState) :
    (ws.foldl (fun st w => CommitJob.note H st (noteArgs w).1 (noteArgs w).2) s).noteCalls
      = s.noteCalls ++ ws.map noteArgs := by
  induction ws generalizing s with
  | nil => simp
  | cons w ws ih =>
    simp only [List.foldl_cons, List.map_cons]
    rw [ih, CommitJob.note_noteCalls]
    simp

theorem ThreadLocalIntents.unspool_fst (H : Header) (t : ThreadLocalIntents) (s : DurState) :
    (ThreadLocalIntents.unspool H t s).1 = { t with n := 0 } := by
  unfold ThreadLocalIntents.unspool
  split
  · rfl
  · rename_i h
    have h0 : t.n = 0 := by simpa using h
    cases t
    simp only at h0
    subst h0
    rfl

/-- An unspool notes the buffer contents `i[0..n)`, in order, and nothing
else. -/
theorem ThreadLocalIntents.unspool_noteCalls (H : Header) (t : ThreadLocalIntents)
    (s : DurState) :
    (ThreadLocalIntents.unspool H t s).2.noteCalls = s.noteCalls ++ t.contents.map noteArgs := by
  unfold ThreadLocalIntents.unspool ThreadLocalIntents.contents
  split
  · dsimp only
    rw [foldl_note_noteCalls]
    split <;> rfl
  · rename_i h
    have h0 : t.n = 0 := by simpa using h
    simp [h0]

theorem take_set_succ (l : List WriteIntent) (n : Nat) (x : WriteIntent) (h : n < l.length) :
    (l.set n x).take (n + 1) = l.take n ++ [x] := by
  induction l generalizing n with
  | nil => simp at h
  | cons a l ih =>
    cases n with
    | zero => simp
    | succ m =>
      simp only [List.length_cons, Nat.add_lt_add_iff_right] at h
      simp [ih m h]

/-- A push on a buffer that satisfies the invariant stays in bounds, keeps the
invariant, and appends the range to what was noted and buffered so far. -/
theorem ThreadLocalIntents.push_spec (H : Header) (t : ThreadLocalIntents) (s : DurState)
    (x : WriteIntent) (hinv : t.Inv) :
    ∃ t1 s1, ThreadLocalIntents.push H t s x = some (t1, s1) ∧ t1.Inv ∧ 1 ≤ t1.n ∧
      (t.n = 21 → t1.n = 1) ∧
      ∃ fl, s1.noteCalls = s.noteCalls ++ fl.map noteArgs ∧
        fl ++ t1.contents = t.contents ++ [x] := by
  obtain ⟨hlen, hn⟩ := hinv
  unfold ThreadLocalIntents.push
  by_cases h21 : t.n = 21
  · simp only [h21, if_true]
    have h1 := ThreadLocalIntents.unspool_fst H t s
    have h2 := ThreadLocalIntents.unspool_noteCalls H t s
    generalize ThreadLocalIntents.unspool H t s = r at h1 h2
    obtain ⟨r1, r2⟩ := r
    simp only at h1 h2
    subst h1
    have hN : (0 : Nat) < N := by decide
    simp only [hN, if_true]
    refine ⟨_, _, rfl, ⟨by simp [hlen], by simp [N]⟩, by simp, fun _ => rfl, t.contents, h2, ?_⟩
    simp only [ThreadLocalIntents.contents]
    congr 1
    have : 0 < t.i.length := by rw [hlen]; exact hN
    exact take_set_succ t.i 0 x this
  · simp only [h21, if_false]
    have hlt : t.n < N := by
      unfold N at hn ⊢
      omega
    simp only [hlt, if_true]
    refine ⟨_, _, rfl, ⟨by simp [hlen], by simp only; omega⟩, by simp, fun h => h.elim,
      [], by simp, ?_⟩
    simp only [ThreadLocalIntents.contents, List.nil_append]
    exact take_set_succ t.i t.n x (by rw [hlen]; exact hlt)

theorem ThreadLocalIntents.init_inv : ThreadLocalIntents.init.Inv := by
  simp [ThreadLocalIntents.Inv, ThreadLocalIntents.init, N]

theorem ThreadLocalIntents.unspool_inv (H : Header) (t : ThreadLocalIntents) (s : DurState)
    (hinv : t.Inv) : (ThreadLocalIntents.unspool H t s).1.Inv := by
  rw [ThreadLocalIntents.unspool_fst]
  exact ⟨hinv.1, Nat.zero_le _⟩

/-- From a buffer that satisfies the invariant, every sequence of pushes and
unspools runs without an out-of-bounds store, keeps the invariant, and the
calls of `note` it issued followed by the final buffer contents are the
initial contents followed by the pushed ranges. -/
theorem runBuf_spec (H : Header) (ops : List BufOp) (t : ThreadLocalIntents) (s : DurState)
    (hinv : t.Inv) :
    ∃ t1 s1, runBuf H ops (t, s) = some (t1, s1) ∧ t1.Inv ∧
      ∃ fl, s1.noteCalls = s.noteCalls ++ fl.map noteArgs ∧
        fl ++ t1.contents = t.contents ++ pushedOf ops := by
  induction ops generalizing t s with
  | nil => exact ⟨t, s, rfl, hinv, [], by simp, by simp [pushedOf]⟩
  | cons op ops ih =>
    cases op with
    | push x =>
      obtain ⟨t1, s1, hp, hinv1, _, _, fl1, hc1, hb1⟩ :=
        ThreadLocalIntents.push_spec H t s x hinv
      obtain ⟨t2, s2, hr, hinv2, fl2, hc2, hb2⟩ := ih t1 s1 hinv1
      refine ⟨t2, s2, ?_, hinv2, fl1 ++ fl2, ?_, ?_⟩
      · simp only [runBuf, BufOp.step, hp]
        exact hr
      · rw [hc2, hc1]
        simp
      · simp only [pushedOf]
        rw [List.append_assoc, hb2, ← List.append_assoc, hb1]
        simp
    | unspool =>
      have hinv1 := ThreadLocalIntents.unspool_inv H t s hinv
      have hc1 := ThreadLocalIntents.unspool_noteCalls H t s
      have hf := ThreadLocalIntents.unspool_fst H t s
      obtain ⟨t2, s2, hr, hinv2, fl2, hc2, hb2⟩ :=
        ih (ThreadLocalIntents.unspool H t s).1 (ThreadLocalIntents.unspool H t s).2 hinv1
      refine ⟨t2, s2, ?_, hinv2, t.contents ++ fl2, ?_, ?_⟩
      · simp only [runBuf, BufOp.step]
        exact hr
      · rw [hc2, hc1]
        simp
      · simp only [pushedOf]
        rw [List.append_assoc, hb2, hf]
        simp [ThreadLocalIntents.contents]

theorem runBuf_append (H : Header) (ops1 ops2 : List BufOp) (c : ThreadLocalIntents × DurState) :
    runBuf H (ops1 ++ ops2) c = (runBuf H ops1 c).bind (runBuf H ops2) := by
  induction ops1 generalizing c with
  | nil => simp [runBuf]
  | cons op ops ih =>
    simp only [List.cons_append, runBuf]
    cases BufOp.step H c op with
    | none => simp
    | some c1 => simp [ih]

theorem pushedOf_map_push (xs : List WriteIntent) : pushedOf (xs.map BufOp.push) = xs := by
  induction xs with
  | nil => rfl
  | cons x xs ih => simp [pushedOf, ih]

/-- Pushes that fit the free slots do not touch the shared state. -/
theorem runBuf_pushes_fit (H : Header) (xs : List WriteIntent) (t : ThreadLocalIntents)
    (s : DurState) (hinv : t.Inv) (hfit : t.n + xs.length ≤ N) :
    ∃ t1, runBuf H (xs.map BufOp.push) (t, s) = some (t1, s) ∧ t1.Inv ∧
      t1.n = t.n + xs.length ∧ t1.contents = t.contents ++ xs := by
  induction xs generalizing t with
  | nil => exact ⟨t, rfl, hinv, by simp, by simp⟩
  | cons x xs ih =>
    simp only [List.length_cons] at hfit
    have hlt : t.n < N := by omega
    have h21 : t.n ≠ 21 := by
      unfold N at hlt
      omega
    have hp : ThreadLocalIntents.push H t s x
        = some ({ i := t.i.set t.n x, n := t.n + 1 }, s) := by
      unfold ThreadLocalIntents.push
      simp only [h21, if_false, hlt, if_true]
    have hinv1 : ThreadLocalIntents.Inv { i := t.i.set t.n x, n := t.n + 1 } :=
      ⟨by simp [hinv.1], by simp only; omega⟩
    obtain ⟨t1, hr, hi1, hn1, hc1⟩ := ih { i := t.i.set t.n x, n := t.n + 1 } hinv1
      (by simp only; omega)
    refine ⟨t1, ?_, hi1, ?_, ?_⟩
    · simp only [List.map_cons, runBuf, BufOp.step, hp]
      exact hr
    · rw [hn1]
      simp only [List.length_cons]
      omega
    · rw [hc1]
      simp only [ThreadLocalIntents.contents]
      rw [take_set_succ t.i t.n x (by rw [hinv.1]; exact hlt)]
      simp

theorem noteArgs_make (a b : Nat) (hb : b < 2147483648) :
    noteArgs (WriteIntent.make a b) = (a, (b : Int)) := by
  have h1 : b % U32 = b := Nat.mod_eq_of_lt (by unfold U32; omega)
  simp [noteArgs, WriteIntent.make, WriteIntent.start, WriteIntent.length, toInt32, h1, hb]

/-! ## Frame facts about `note` -/

/-- The throttled warning touches only `nComplains`, `lastComplain` and the
log. -/
theorem CommitJob.complain_frame (s : DurState) :
    (CommitJob.complain s).commitJob = s.commitJob ∧
    (CommitJob.complain s).lastPos = s.lastPos ∧
    (CommitJob.complain s).privateMapBytes = s.privateMapBytes := by
  unfold CommitJob.complain
  dsimp only
  split <;> exact ⟨rfl, rfl, rfl⟩

/-- The page-byte accounting keeps `_hasWritten` and the three collections. -/
theorem CommitJob.countBytes_frame (H : Header) (s : DurState) (p : Nat) (len : Int) :
    (CommitJob.countBytes H s p len).commitJob._hasWritten = s.commitJob._hasWritten ∧
    (CommitJob.countBytes H s p len).commitJob._wi = s.commitJob._wi ∧
    (CommitJob.countBytes H s p len).privateMapBytes = s.privateMapBytes := by
  unfold CommitJob.countBytes
  dsimp only
  split
  · split
    · obtain ⟨h1, _, h3⟩ := CommitJob.complain_frame
        { s with
          commitJob :=
            { s.commitJob with
              _bytes := (s.commitJob._bytes + maskPage (toU32 (len + 4095))) % SIZE
              _nSinceCommitIfNeededCall :=
                if H.debug then s.commitJob._nSinceCommitIfNeededCall + 1
                else s.commitJob._nSinceCommitIfNeededCall }
          lastPos := maskPage p
          log := s.log ++
            (if H.debug then
              debugLines
                (if H.debug then s.commitJob._nSinceCommitIfNeededCall + 1
                 else s.commitJob._nSinceCommitIfNeededCall)
                ((s.commitJob._bytes + maskPage (toU32 (len + 4095))) % SIZE)
             else []) }
      rw [h1, h3]
      exact ⟨rfl, rfl, rfl⟩
    · exact ⟨rfl, rfl, rfl⟩
  · exact ⟨rfl, rfl, rfl⟩

/-- What the page-byte accounting does to `_bytes` and `lastPos`. -/
theorem CommitJob.countBytes_bytes (H : Header) (s : DurState) (p : Nat) (len : Int) :
    (maskPage p ≠ s.lastPos →
      (CommitJob.countBytes H s p len).commitJob._bytes
        = (s.commitJob._bytes + maskPage (toU32 (len + 4095))) % SIZE ∧
      (CommitJob.countBytes H s p len).lastPos = maskPage p) ∧
    (maskPage p = s.lastPos →
      CommitJob.countBytes H s p len = s) := by
  unfold CommitJob.countBytes
  dsimp only
  constructor
  · intro hne
    rw [if_pos hne]
    split
    · obtain ⟨h1, h2, _⟩ := CommitJob.complain_frame
        { s with
          commitJob :=
            { s.commitJob with
              _bytes := (s.commitJob._bytes + maskPage (toU32 (len + 4095))) % SIZE
              _nSinceCommitIfNeededCall :=
                if H.debug then s.commitJob._nSinceCommitIfNeededCall + 1
                else s.commitJob._nSinceCommitIfNeededCall }
          lastPos := maskPage p
          log := s.log ++
            (if H.debug then
              debugLines
                (if H.debug then s.commitJob._nSinceCommitIfNeededCall + 1
                 else s.commitJob._nSinceCommitIfNeededCall)
                ((s.commitJob._bytes + maskPage (toU32 (len + 4095))) % SIZE)
             else []) }
      rw [h1, h2]
      exact ⟨rfl, rfl⟩
    · exact ⟨rfl, rfl⟩
  · intro heq
    rw [if_neg (not_not.mpr heq)]

/-- A call of `note` that the check-and-mark reports as already noted changes
the dedup set and the call history only. -/
theorem CommitJob.note_of_dup (H : Header) (s : DurState) (p : Nat) (len : Int)
    (hdup : (H.checkAndSet s.commitJob._wi._alreadyNoted p len).1 = true) :
    CommitJob.note H s p len =
      { s with
        noteCalls := s.noteCalls ++ [(p, len)]
        commitJob :=
          { s.commitJob with
            _wi := { s.commitJob._wi with
                     _alreadyNoted := (H.checkAndSet s.commitJob._wi._alreadyNoted p len).2 } } } := by
  unfold CommitJob.note
  dsimp only
  rw [if_pos hdup]

/-- A call of `note` that is not reported as already noted: the state that
the page-byte accounting starts from. -/
theorem CommitJob.note_of_new (H : Header) (s : DurState) (p : Nat) (len : Int)
    (hnew : (H.checkAndSet s.commitJob._wi._alreadyNoted p len).1 = false) :
    CommitJob.note H s p len =
      CommitJob.countBytes H
        { s with
          noteCalls := s.noteCalls ++ [(p, len)]
          commitJob :=
            { s.commitJob with
              _hasWritten := true
              _wi := { s.commitJob._wi with
                       _alreadyNoted := (H.checkAndSet s.commitJob._wi._alreadyNoted p len).2
                       _intents := H.insertWriteIntent s.commitJob._wi._intents p len } } }
        p len := by
  unfold CommitJob.note
  dsimp only
  rw [if_neg (by simp [hnew])]

/-- What a call of `note` that is not reported as already noted does to
`_bytes` and `lastPos`. -/
theorem CommitJob.note_bytes (H : Header) (s : DurState) (p : Nat) (len : Int)
    (hnew : (H.checkAndSet s.commitJob._wi._alreadyNoted p len).1 = false) :
    (maskPage p ≠ s.lastPos →
      (CommitJob.note H s p len).commitJob._bytes
        = (s.commitJob._bytes + maskPage (toU32 (len + 4095))) % SIZE ∧
      (CommitJob.note H s p len).lastPos = maskPage p) ∧
    (maskPage p = s.lastPos →
      (CommitJob.note H s p len).commitJob._bytes = s.commitJob._bytes ∧
      (CommitJob.note H s p len).lastPos = s.lastPos) := by
  rw [CommitJob.note_of_new H s p len hnew]
  constructor
  · intro hne
    exact (CommitJob.countBytes_bytes H _ p len).1 hne
  · intro heq
    have := (CommitJob.countBytes_bytes H
      { s with
        noteCalls := s.noteCalls ++ [(p, len)]
        commitJob :=
          { s.commitJob with
            _hasWritten := true
            _wi := { s.commitJob._wi with
                     _alreadyNoted := (H.checkAndSet s.commitJob._wi._alreadyNoted p len).2
                     _intents := H.insertWriteIntent s.commitJob._wi._intents p len } } }
      p len).2 heq
    rw [this]
    exact ⟨rfl, rfl⟩

/-- The dedup set after a call of `note` is the marked set of its
check-and-mark. -/
theorem CommitJob.note_alreadyNoted (H : Header) (s : DurState) (p : Nat) (len : Int) :
    (CommitJob.note H s p len).commitJob._wi._alreadyNoted
      = (H.checkAndSet s.commitJob._wi._alreadyNoted p len).2 := by
  cases h : (H.checkAndSet s.commitJob._wi._alreadyNoted p len).1 with
  | true => rw [CommitJob.note_of_dup H s p len h]
  | false =>
    rw [CommitJob.note_of_new H s p len h, (CommitJob.countBytes_frame H _ p len).2.1]

/-- A call of `note` never clears `_hasWritten`, and sets it when the range is
not reported as already noted. -/
theorem CommitJob.note_hasWritten (H : Header) (s : DurState) (p : Nat) (len : Int) :
    (s.commitJob._hasWritten = true → (CommitJob.note H s p len).commitJob._hasWritten = true) ∧
    ((H.checkAndSet s.commitJob._wi._alreadyNoted p len).1 = false →
      (CommitJob.note H s p len).commitJob._hasWritten = true) := by
  constructor
  · intro hw
    cases h : (H.checkAndSet s.commitJob._wi._alreadyNoted p len).1 with
    | true => rw [CommitJob.note_of_dup H s p len h]; exact hw
    | false => rw [CommitJob.note_of_new H s p len h, (CommitJob.countBytes_frame H _ p len).1]
  · intro h
    rw [CommitJob.note_of_new H s p len h, (CommitJob.countBytes_frame H _ p len).1]

/-! ## Facts about the check-and-mark of the spec -/

theorem Already.checkAndSet_true_nonempty (a : Already) (p : Nat) (len : Int)
    (h : (Already.checkAndSet a p len).1 = true) : a ≠ [] := by
  intro ha
  subst ha
  simp [Already.checkAndSet] at h

/-- Right after a check-and-mark of a range, the same range is reported as
already noted and the set stays as it is. -/
theorem Already.checkAndSet_again (a : Already) (p : Nat) (len : Int) :
    Already.checkAndSet (Already.checkAndSet a p len).2 p len
      = (true, (Already.checkAndSet a p len).2) := by
  unfold Already.checkAndSet
  by_cases h : a.any (fun e => decide (e.1 = p ∧ len ≤ e.2)) = true
  · simp only [h, if_true]
  · simp only [h]
    simp

/-! ## The flush invariant -/

/-- With the check-and-mark of the spec, a call of `note` in a state that
satisfies the invariant leaves `_hasWritten` set. -/
theorem CommitJob.note_sets_hasWritten (limit : Nat) (debug : Bool) (s : DurState) (p : Nat)
    (len : Int) (hinv : DedupImpliesWritten s) :
    (CommitJob.note (specHeader limit debug) s p len).commitJob._hasWritten = true := by
  cases h : ((specHeader limit debug).checkAndSet s.commitJob._wi._alreadyNoted p len).1 with
  | true =>
    have hne : s.commitJob._wi._alreadyNoted ≠ [] :=
      Already.checkAndSet_true_nonempty _ p len h
    exact (CommitJob.note_hasWritten _ s p len).1 (hinv hne)
  | false => exact (CommitJob.note_hasWritten _ s p len).2 h

theorem foldl_note_hasWritten (limit : Nat) (debug : Bool) (ws : List WriteIntent)
    (s : DurState) (hinv : DedupImpliesWritten s) :
    DedupImpliesWritten
      (ws.foldl (fun st w => CommitJob.note (specHeader limit debug) st (noteArgs w).1
        (noteArgs w).2) s) ∧
    (ws ≠ [] →
      (ws.foldl (fun st w => CommitJob.note (specHeader limit debug) st (noteArgs w).1
        (noteArgs w).2) s).commitJob._hasWritten = true) := by
  induction ws generalizing s with
  | nil => exact ⟨hinv, fun h => absurd rfl h⟩
  | cons w ws ih =>
    have hw := CommitJob.note_sets_hasWritten limit debug s (noteArgs w).1 (noteArgs w).2 hinv
    have hinv1 : DedupImpliesWritten
        (CommitJob.note (specHeader limit debug) s (noteArgs w).1 (noteArgs w).2) :=
      fun _ => hw
    obtain ⟨h1, h2⟩ := ih _ hinv1
    refine ⟨h1, fun _ => ?_⟩
    cases ws with
    | nil => exact hw
    | cons v vs => exact h2 (by simp)

/-- An unspool keeps the invariant, and it leaves `_hasWritten` set when the
buffer is non-empty. -/
theorem ThreadLocalIntents.unspool_hasWritten (limit : Nat) (debug : Bool)
    (t : ThreadLocalIntents) (s : DurState) (hinv : DedupImpliesWritten s) :
    DedupImpliesWritten (ThreadLocalIntents.unspool (specHeader limit debug) t s).2 ∧
    (t.i.length = N → t.n ≠ 0 →
      (ThreadLocalIntents.unspool (specHeader limit debug) t s).2.commitJob._hasWritten
        = true) := by
  unfold ThreadLocalIntents.unspool
  by_cases hn : t.n = 0
  · simp only [hn, ne_eq, not_true_eq_false, if_false]
    exact ⟨hinv, fun _ h => h.elim⟩
  · simp only [ne_eq, hn, not_false_eq_true, if_true]
    have hinv1 : DedupImpliesWritten
        (if (specHeader limit debug).debug = true then
          { s with notesThisLock := (s.notesThisLock + t.n) % U32 } else s) := by
      split
      · exact hinv
      · exact hinv
    obtain ⟨h1, h2⟩ := foldl_note_hasWritten limit debug (t.i.take t.n) _ hinv1
    refine ⟨h1, fun hlen _ => h2 ?_⟩
    intro hnil
    have hl := congrArg List.length hnil
    simp only [List.length_take, List.length_nil, hlen] at hl
    unfold N at hl
    omega

theorem AggOp.step_inv (limit : Nat) (debug : Bool) (s : DurState) (op : AggOp)
    (hinv : DedupImpliesWritten s) :
    DedupImpliesWritten (AggOp.step (specHeader limit debug) s op) := by
  cases op with
  | note p len => exact fun _ => CommitJob.note_sets_hasWritten limit debug s p len hinv
  | noteOp op => exact fun _ => rfl
  | beginCommit => exact hinv
  | reset => exact fun h => absurd rfl h
  | unspool t => exact (ThreadLocalIntents.unspool_hasWritten limit debug t s hinv).1
  | env t n => exact hinv

theorem runAgg_inv (limit : Nat) (debug : Bool) (ops : List AggOp) (s : DurState)
    (hinv : DedupImpliesWritten s) :
    DedupImpliesWritten (runAgg (specHeader limit debug) ops s) := by
  unfold runAgg
  induction ops generalizing s with
  | nil => exact hinv
  | cons op ops ih => exact ih _ (AggOp.step_inv limit debug s op hinv)

/-! ## Frame facts about the durable-operation queue -/

/-- A call of `note` keeps the durable-operation queue. -/
theorem CommitJob.note_durOps (H : Header) (s : DurState) (p : Nat) (len : Int) :
    (CommitJob.note H s p len).commitJob._wi._durOps = s.commitJob._wi._durOps := by
  cases h : (H.checkAndSet s.commitJob._wi._alreadyNoted p len).1 with
  | true => rw [CommitJob.note_of_dup H s p len h]
  | false => rw [CommitJob.note_of_new H s p len h, (CommitJob.countBytes_frame H _ p len).2.1]

theorem foldl_note_durOps (H : Header) (ws : List WriteIntent) (s : DurState) :
    (ws.foldl (fun st w => CommitJob.note H st (noteArgs w).1 (noteArgs w).2) s).commitJob._wi._durOps
      = s.commitJob._wi._durOps := by
  induction ws generalizing s with
  | nil => rfl
  | cons w ws ih => rw [List.foldl_cons, ih, CommitJob.note_durOps]

/-- An unspool keeps the durable-operation queue. -/
theorem ThreadLocalIntents.unspool_durOps (H : Header) (t : ThreadLocalIntents) (s : DurState) :
    (ThreadLocalIntents.unspool H t s).2.commitJob._wi._durOps = s.commitJob._wi._durOps := by
  unfold ThreadLocalIntents.unspool
  split
  · dsimp only
    rw [foldl_note_durOps]
    split <;> rfl
  · rfl

/-- Without a reset, a sequence of operations appends to the queue exactly
the operations passed to `noteOp`, in call order. -/
theorem runAgg_durOps (H : Header) (ops : List AggOp) (s : DurState)
    (hnr : AggOp.reset ∉ ops) :
    (runAgg H ops s).commitJob._wi._durOps = s.commitJob._wi._durOps ++ noteOpsOf ops := by
  unfold runAgg
  induction ops generalizing s with
  | nil => simp [noteOpsOf]
  | cons op ops ih =>
    have hnr1 : AggOp.reset ∉ ops := fun h => hnr (List.mem_cons_of_mem _ h)
    have hop : op ≠ AggOp.reset := fun h => hnr (by rw [h]; exact List.mem_cons_self _ _)
    rw [List.foldl_cons, ih _ hnr1]
    cases op with
    | note p len => simp only [AggOp.step, noteOpsOf, CommitJob.note_durOps]
    | noteOp o => simp [AggOp.step, noteOpsOf, CommitJob.noteOp]
    | beginCommit => simp [AggOp.step, noteOpsOf, CommitJob.beginCommit]
    | reset => exact absurd rfl hop
    | unspool t => simp only [AggOp.step, noteOpsOf, ThreadLocalIntents.unspool_durOps]
    | env t n => simp [AggOp.step, noteOpsOf]

/-! ## Facts about the throttled warning -/

theorem nWarnings_append (l1 l2 : List LogEvent) :
    nWarnings (l1 ++ l2) = nWarnings l1 + nWarnings l2 := by
  simp [nWarnings, List.countP_append]

theorem nWarnings_debugLines (n bytes : Nat) : nWarnings (debugLines n bytes) = 0 := by
  unfold debugLines
  split
  · split
    · split <;> simp [nWarnings, LogEvent.isWarning]
    · rfl
  · rfl

/-- What the throttled warning does: the counter is incremented, and the
warning is emitted with `lastComplain = time(0)` exactly when the incremented
counter is below 100 or 60 seconds have passed since `lastComplain`. -/
theorem CommitJob.complain_spec (s : DurState) :
    (CommitJob.complain s).nComplains = (s.nComplains + 1) % U32 ∧
    (((s.nComplains + 1) % U32 < 100 ∨ s.time0 - s.lastComplain ≥ 60) →
      (CommitJob.complain s).lastComplain = s.time0 ∧
      nWarnings (CommitJob.complain s).log = nWarnings s.log + 1) ∧
    (¬ ((s.nComplains + 1) % U32 < 100 ∨ s.time0 - s.lastComplain ≥ 60) →
      (CommitJob.complain s).lastComplain = s.lastComplain ∧
      (CommitJob.complain s).log = s.log) := by
  unfold CommitJob.complain
  dsimp only
  refine ⟨?_, ?_, ?_⟩
  · split <;> rfl
  · intro h
    rw [if_pos h]
    refine ⟨rfl, ?_⟩
    dsimp only
    rw [nWarnings_append]
    split <;> simp [nWarnings, LogEvent.isWarning]
  · intro h
    rw [if_neg h]
    exact ⟨rfl, rfl⟩

/-- A call of `note` that is not reported as already noted runs the page-byte
accounting on the state after the insertion. -/
theorem CommitJob.note_eq_countBytes (H : Header) (s : DurState) (p : Nat) (len : Int)
    (hnew : (H.checkAndSet s.commitJob._wi._alreadyNoted p len).1 = false) :
    CommitJob.note H s p len = CommitJob.countBytes H (CommitJob.inserted H s p len) p len :=
  CommitJob.note_of_new H s p len hnew

/-- The page-byte accounting on a new page: the throttled warning runs on the
counted state exactly when `_bytes` is over three times the limit. -/
theorem CommitJob.countBytes_new_page (H : Header) (s : DurState) (p : Nat) (len : Int)
    (hne : maskPage p ≠ s.lastPos) :
    CommitJob.countBytes H s p len =
      if (CommitJob.counted H s p len).commitJob._bytes > H.UncommittedBytesLimit * 3 then
        CommitJob.complain (CommitJob.counted H s p len)
      else CommitJob.counted H s p len := by
  unfold CommitJob.countBytes
  dsimp only
  rw [if_pos hne]
  rfl

/-- The page-byte accounting on the remembered page does nothing. -/
theorem CommitJob.countBytes_same_page (H : Header) (s : DurState) (p : Nat) (len : Int)
    (heq : maskPage p = s.lastPos) : CommitJob.countBytes H s p len = s :=
  (CommitJob.countBytes_bytes H s p len).2 heq

/-- A recorded note on a new page: the state it ends in. -/
theorem CommitJob.note_new_page (H : Header) (s : DurState) (p : Nat) (len : Int)
    (hnew : (H.checkAndSet s.commitJob._wi._alreadyNoted p len).1 = false)
    (hne : maskPage p ≠ s.lastPos) :
    CommitJob.note H s p len =
      if (s.commitJob._bytes + maskPage (toU32 (len + 4095))) % SIZE
          > H.UncommittedBytesLimit * 3 then
        CommitJob.complain (CommitJob.counted H (CommitJob.inserted H s p len) p len)
      else CommitJob.counted H (CommitJob.inserted H s p len) p len := by
  rw [CommitJob.note_eq_countBytes H s p len hnew]
  exact CommitJob.countBytes_new_page H (CommitJob.inserted H s p len) p len hne

/-- A recorded note on the remembered page: the state it ends in. -/
theorem CommitJob.note_same_page (H : Header) (s : DurState) (p : Nat) (len : Int)
    (hnew : (H.checkAndSet s.commitJob._wi._alreadyNoted p len).1 = false)
    (heq : maskPage p = s.lastPos) :
    CommitJob.note H s p len = CommitJob.inserted H s p len := by
  rw [CommitJob.note_eq_countBytes H s p len hnew]
  exact CommitJob.countBytes_same_page H (CommitJob.inserted H s p len) p len heq

theorem nWarnings_counted (H : Header) (s : DurState) (p : Nat) (len : Int) :
    nWarnings (CommitJob.counted H (CommitJob.inserted H s p len) p len).log
      = nWarnings s.log := by
  show nWarnings (s.log ++ _) = nWarnings s.log
  rw [nWarnings_append]
  split
  · rw [nWarnings_debugLines]; rfl
  · rfl

/-- A recorded note on a new page that ends over three times the limit counts
a breach and emits the warning subject to the throttle. -/
theorem CommitJob.note_breach (H : Header) (s : DurState) (p : Nat) (len : Int)
    (hnew : (H.checkAndSet s.commitJob._wi._alreadyNoted p len).1 = false)
    (hne : maskPage p ≠ s.lastPos)
    (hover : (s.commitJob._bytes + maskPage (toU32 (len + 4095))) % SIZE
      > H.UncommittedBytesLimit * 3) :
    (CommitJob.note H s p len).nComplains = (s.nComplains + 1) % U32 ∧
    (((s.nComplains + 1) % U32 < 100 ∨ s.time0 - s.lastComplain ≥ 60) →
      (CommitJob.note H s p len).lastComplain = s.time0 ∧
      nWarnings (CommitJob.note H s p len).log = nWarnings s.log + 1) ∧
    (¬ ((s.nComplains + 1) % U32 < 100 ∨ s.time0 - s.lastComplain ≥ 60) →
      (CommitJob.note H s p len).lastComplain = s.lastComplain ∧
      nWarnings (CommitJob.note H s p len).log = nWarnings s.log) := by
  rw [CommitJob.note_new_page H s p len hnew hne, if_pos hover]
  obtain ⟨h1, h2, h3⟩ :=
    CommitJob.complain_spec (CommitJob.counted H (CommitJob.inserted H s p len) p len)
  refine ⟨h1, ?_, ?_⟩
  · intro hc
    obtain ⟨ha, hb⟩ := h2 hc
    rw [nWarnings_counted] at hb
    exact ⟨ha, hb⟩
  · intro hc
    obtain ⟨ha, hb⟩ := h3 hc
    rw [hb, nWarnings_counted]
    exact ⟨ha, rfl⟩

/-- A recorded note that makes no budget check, or whose check finds `_bytes`
within three times the limit, leaves the throttle state and the number of
warnings as they were. -/
theorem CommitJob.note_no_breach (H : Header) (s : DurState) (p : Nat) (len : Int)
    (hnew : (H.checkAndSet s.commitJob._wi._alreadyNoted p len).1 = false)
    (hno : maskPage p = s.lastPos ∨
      ¬ (s.commitJob._bytes + maskPage (toU32 (len + 4095))) % SIZE
        > H.UncommittedBytesLimit * 3) :
    (CommitJob.note H s p len).nComplains = s.nComplains ∧
    (CommitJob.note H s p len).lastComplain = s.lastComplain ∧
    nWarnings (CommitJob.note H s p len).log = nWarnings s.log := by
  by_cases heq : maskPage p = s.lastPos
  · rw [CommitJob.note_same_page H s p len hnew heq]
    exact ⟨rfl, rfl, rfl⟩
  · have hle := hno.resolve_left heq
    rw [CommitJob.note_new_page H s p len hnew heq, if_neg hle]
    exact ⟨rfl, rfl, nWarnings_counted H s p len⟩

/-! ## Facts about the counted bytes -/

/-- A call of `note` keeps `privateMapBytes` and adds its amount to `_bytes`
in `size_t` arithmetic. -/
theorem CommitJob.note_added (H : Header) (s : DurState) (p : Nat) (len : Int) :
    (CommitJob.note H s p len).privateMapBytes = s.privateMapBytes ∧
    ((CommitJob.note H s p len).commitJob._bytes = s.commitJob._bytes ∧
        CommitJob.added H s p len = 0 ∨
     (CommitJob.note H s p len).commitJob._bytes
        = (s.commitJob._bytes + CommitJob.added H s p len) % SIZE) := by
  unfold CommitJob.added
  cases h : (H.checkAndSet s.commitJob._wi._alreadyNoted p len).1 with
  | true =>
    rw [CommitJob.note_of_dup H s p len h]
    exact ⟨rfl, Or.inl ⟨rfl, rfl⟩⟩
  | false =>
    refine ⟨?_, ?_⟩
    · rw [CommitJob.note_eq_countBytes H s p len h, (CommitJob.countBytes_frame H _ p len).2.2]
      rfl
    · simp only [Bool.false_eq_true, if_false]
      by_cases hp : maskPage p = s.lastPos
      · left
        simp only [hp, ne_eq, not_true_eq_false, if_false, and_true]
        exact ((CommitJob.note_bytes H s p len h).2 hp).1
      · right
        simp only [ne_eq, hp, not_false_eq_true, if_true]
        exact ((CommitJob.note_bytes H s p len h).1 hp).1

/-- Without `size_t` overflow a call of `note` raises the counted bytes by
its amount. -/
theorem CommitJob.note_countedBytes (H : Header) (s : DurState) (p : Nat) (len : Int)
    (hfit : s.countedBytes + CommitJob.added H s p len < SIZE) :
    (CommitJob.note H s p len).countedBytes = s.countedBytes + CommitJob.added H s p len := by
  obtain ⟨h1, h2⟩ := CommitJob.note_added H s p len
  unfold DurState.countedBytes at hfit ⊢
  rw [h1]
  rcases h2 with ⟨hb, h0⟩ | hb
  · rw [hb, h0]
    rfl
  · rw [hb, Nat.mod_eq_of_lt (by omega)]
    omega

theorem foldl_note_countedBytes (H : Header) (ws : List WriteIntent) (s : DurState)
    (hfit : s.countedBytes + addedByNotes H ws s < SIZE) :
    (ws.foldl (fun st w => CommitJob.note H st (noteArgs w).1 (noteArgs w).2) s).countedBytes
      = s.countedBytes + addedByNotes H ws s := by
  induction ws generalizing s with
  | nil => rfl
  | cons w ws ih =>
    simp only [addedByNotes] at hfit ⊢
    have h1 := CommitJob.note_countedBytes H s (noteArgs w).1 (noteArgs w).2 (by omega)
    rw [List.foldl_cons, ih _ (by rw [h1]; omega), h1]
    omega

/-- Without `size_t` overflow one operation raises the counted bytes by the
amount its notes add. -/
theorem AggOp.step_countedBytes (H : Header) (s : DurState) (op : AggOp)
    (hfit : s.countedBytes + AggOp.added H s op < SIZE) :
    (AggOp.step H s op).countedBytes = s.countedBytes + AggOp.added H s op := by
  cases op with
  | note p len => exact CommitJob.note_countedBytes H s p len hfit
  | noteOp o => rfl
  | beginCommit => rfl
  | reset =>
    simp only [AggOp.added, Nat.add_zero] at hfit
    unfold DurState.countedBytes at hfit ⊢
    show (s.privateMapBytes + s.commitJob._bytes) % SIZE + 0 = _
    rw [Nat.mod_eq_of_lt hfit]
    rfl
  | unspool t =>
    simp only [AggOp.added] at hfit ⊢
    simp only [AggOp.step, ThreadLocalIntents.unspool]
    by_cases hn : t.n = 0
    · simp only [hn, ne_eq, not_true_eq_false, if_false]
      rfl
    · simp only [ne_eq, hn, not_false_eq_true, if_true] at hfit ⊢
      have hs : (if H.debug = true then
          { s with notesThisLock := (s.notesThisLock + t.n) % U32 } else s).countedBytes
          = s.countedBytes := by
        split <;> rfl
      rw [foldl_note_countedBytes H _ _ (by rw [hs]; exact hfit), hs]
  | env t n => rfl

theorem totalAdded_append (H : Header) (ops1 ops2 : List AggOp) (s : DurState) :
    totalAdded H (ops1 ++ ops2) s
      = totalAdded H ops1 s + totalAdded H ops2 (runAgg H ops1 s) := by
  induction ops1 generalizing s with
  | nil => simp [totalAdded, runAgg]
  | cons op ops ih =>
    have h := ih (AggOp.step H s op)
    simp only [runAgg] at h
    show AggOp.added H s op + totalAdded H (ops ++ ops2) (AggOp.step H s op)
      = AggOp.added H s op + totalAdded H ops (AggOp.step H s op)
        + totalAdded H ops2 (List.foldl (AggOp.step H) (AggOp.step H s op) ops)
    rw [h]
    omega

/-- Without `size_t` overflow a sequence of operations raises the counted
bytes by the total its notes add. -/
theorem runAgg_countedBytes (H : Header) (ops : List AggOp) (s : DurState)
    (hfit : s.countedBytes + totalAdded H ops s < SIZE) :
    (runAgg H ops s).countedBytes = s.countedBytes + totalAdded H ops s := by
  induction ops generalizing s with
  | nil => rfl
  | cons op ops ih =>
    simp only [totalAdded] at hfit ⊢
    have h1 := AggOp.step_countedBytes H s op (by omega)
    have h2 := ih (AggOp.step H s op) (by rw [h1]; omega)
    simp only [runAgg, List.foldl_cons] at h2 ⊢
    rw [h2, h1]
    omega

/-- When the sum of the two lengths fits an `unsigned`, `absorb` of two
overlapping intents stores the exact span, which lies between the larger
length and the sum of the lengths. -/
theorem WriteIntent.absorb_length_bounds (a b : WriteIntent) (ha : a.WF) (hb : b.WF)
    (ho : a.overlaps b = true) (hsum : a.length + b.length < U32) :
    (a.absorb b).length = max a.end b.end - min a.start b.start ∧
    max a.length b.length ≤ (a.absorb b).length ∧
    (a.absorb b).length ≤ a.length + b.length := by
  obtain ⟨hle, hge⟩ := WriteIntent.span_le_of_overlaps a b ha hb ho
  have hfit : max a.end b.end - min a.start b.start < U32 := by omega
  have hlen : (a.absorb b).length = max a.end b.end - min a.start b.start := by
    rw [WriteIntent.absorb_len]
    exact Nat.mod_eq_of_lt hfit
  rw [hlen]
  exact ⟨rfl, hge, hle⟩

/-! ## Facts about notes of separate ranges -/

theorem toU32_toInt32 (u : Nat) (hu : u < U32) : toU32 (toInt32 u) = u := by
  unfold toU32 toInt32
  have h1 : u % U32 = u := Nat.mod_eq_of_lt hu
  rw [h1]
  unfold U32 at hu
  split <;> omega

/-- The arguments that `unspool` passes for a well-formed range denote that
range again. -/
theorem WriteIntent.make_noteArgs (w : WriteIntent) (hw : w.WF) :
    WriteIntent.make (noteArgs w).1 (toU32 (noteArgs w).2) = w := by
  obtain ⟨h1, h2⟩ := hw
  cases w with
  | mk p len =>
    simp only [noteArgs, WriteIntent.start, WriteIntent.length] at *
    rw [toU32_toInt32 len h1]
    simp only [WriteIntent.make, WriteIntent.mk.injEq, and_true]
    omega

/-- Two proper ranges that do not overlap start at different addresses. -/
theorem WriteIntent.start_ne_of_separate (a b : WriteIntent) (ha : a.Proper) (hb : b.Proper)
    (hsep : a.overlaps b = false) : a.start ≠ b.start := by
  obtain ⟨⟨_, ha2⟩, ha3⟩ := ha
  obtain ⟨⟨_, hb2⟩, hb3⟩ := hb
  unfold WriteIntent.overlaps at hsep
  simp only [decide_eq_false_iff_not, WriteIntent.start, WriteIntent.end] at hsep
  simp only [WriteIntent.start]
  omega

/-- The merging insertion appends a range that overlaps no stored entry. -/
theorem Writes.mergeInto_of_separate (xs : List WriteIntent) (w : WriteIntent)
    (hsep : ∀ x ∈ xs, x.overlaps w = false) : Writes.mergeInto xs w = xs ++ [w] := by
  induction xs with
  | nil => rfl
  | cons x xs ih =>
    have hx : x.overlaps w = false := hsep x (List.mem_cons_self _ _)
    simp only [Writes.mergeInto, hx, Bool.false_eq_true, if_false, List.cons_append]
    rw [ih (fun y hy => hsep y (List.mem_cons_of_mem _ hy))]

/-- The check-and-mark of the spec reports a range as new when no marked
range starts where it starts. -/
theorem Already.checkAndSet_of_new_start (a : Already) (p : Nat) (len : Int)
    (hne : ∀ e ∈ a, e.1 ≠ p) : Already.checkAndSet a p len = (false, (p, len) :: a) := by
  unfold Already.checkAndSet
  have h : a.any (fun e => decide (e.1 = p ∧ len ≤ e.2)) = false := by
    rw [List.any_eq_false]
    intro e he
    have := hne e he
    simp [this]
  rw [h]
  rfl

/-- With the helpers of the spec, noting a proper range that overlaps none of
the ranges noted so far adds exactly that range to the dedup set and to the
intent collection. -/
theorem CommitJob.note_of_separate (limit : Nat) (debug : Bool) (s : DurState)
    (noted : List WriteIntent) (w : WriteIntent) (hR : HoldsNoted s noted) (hw : w.Proper)
    (hnoted : ∀ x ∈ noted, x.Proper) (hsep : ∀ x ∈ noted, x.overlaps w = false) :
    HoldsNoted (CommitJob.note (specHeader limit debug) s (noteArgs w).1 (noteArgs w).2)
      (noted ++ [w]) := by
  obtain ⟨hi, ha⟩ := hR
  have hchk : Already.checkAndSet s.commitJob._wi._alreadyNoted (noteArgs w).1 (noteArgs w).2
      = (false, ((noteArgs w).1, (noteArgs w).2) :: s.commitJob._wi._alreadyNoted) := by
    apply Already.checkAndSet_of_new_start
    intro e he
    rw [ha, List.mem_reverse, List.mem_map] at he
    obtain ⟨x, hx, rfl⟩ := he
    exact WriteIntent.start_ne_of_separate x w (hnoted x hx) hw (hsep x hx)
  have hnew : ((specHeader limit debug).checkAndSet s.commitJob._wi._alreadyNoted
      (noteArgs w).1 (noteArgs w).2).1 = false := by
    show (Already.checkAndSet _ _ _).1 = false
    rw [hchk]
  rw [CommitJob.note_eq_countBytes _ s _ _ hnew]
  have hf := (CommitJob.countBytes_frame (specHeader limit debug)
    (CommitJob.inserted (specHeader limit debug) s (noteArgs w).1 (noteArgs w).2)
    (noteArgs w).1 (noteArgs w).2).2.1
  unfold HoldsNoted
  rw [hf]
  constructor
  · show Writes.insertWriteIntent s.commitJob._wi._intents (noteArgs w).1 (noteArgs w).2 = _
    unfold Writes.insertWriteIntent
    rw [WriteIntent.make_noteArgs w hw.1, hi]
    exact Writes.mergeInto_of_separate noted w hsep
  · show (Already.checkAndSet s.commitJob._wi._alreadyNoted (noteArgs w).1 (noteArgs w).2).2 = _
    rw [hchk, ha]
    simp

/-- The notes of an unspool loop over proper, pairwise separate ranges add
exactly those ranges, in order. -/
theorem foldl_note_of_separate (limit : Nat) (debug : Bool) (ws : List WriteIntent)
    (s : DurState) (noted : List WriteIntent) (hR : HoldsNoted s noted)
    (hgood : ∀ x ∈ noted ++ ws, x.Proper)
    (hsep : (noted ++ ws).Pairwise (fun a b => a.overlaps b = false)) :
    HoldsNoted
      (ws.foldl (fun st w => CommitJob.note (specHeader limit debug) st (noteArgs w).1
        (noteArgs w).2) s)
      (noted ++ ws) := by
  induction ws generalizing s noted with
  | nil => simpa using hR
  | cons w ws ih =>
    have hsep1 : ∀ x ∈ noted, x.overlaps w = false := by
      intro x hx
      rw [List.pairwise_append] at hsep
      exact hsep.2.2 x hx w (List.mem_cons_self _ _)
    have hR1 := CommitJob.note_of_separate limit debug s noted w hR
      (hgood w (by simp)) (fun x hx => hgood x (by simp [hx])) hsep1
    have := ih _ (noted ++ [w]) hR1 (by simpa using hgood) (by simpa using hsep)
    simpa using this

/-- An unspool of a buffer of proper ranges that are separate from each other
and from the ranges noted so far adds exactly the buffered ranges. -/
theorem ThreadLocalIntents.unspool_of_separate (limit : Nat) (debug : Bool)
    (t : ThreadLocalIntents) (s : DurState) (noted : List WriteIntent) (hR : HoldsNoted s noted)
    (hgood : ∀ x ∈ noted ++ t.contents, x.Proper)
    (hsep : (noted ++ t.contents).Pairwise (fun a b => a.overlaps b = false)) :
    HoldsNoted (ThreadLocalIntents.unspool (specHeader limit debug) t s).2
      (noted ++ t.contents) := by
  unfold ThreadLocalIntents.unspool
  by_cases hn : t.n = 0
  · simp only [hn, ne_eq, not_true_eq_false, if_false]
    simpa [ThreadLocalIntents.contents, hn] using hR
  · simp only [ne_eq, hn, not_false_eq_true, if_true]
    have hR1 : HoldsNoted
        (if (specHeader limit debug).debug = true then
          { s with notesThisLock := (s.notesThisLock + t.n) % U32 } else s) noted := by
      split
      · exact hR
      · exact hR
    exact foldl_note_of_separate limit debug (t.i.take t.n) _ noted hR1 hgood hsep

/-- What a push on a buffer that satisfies the invariant returns. -/
theorem ThreadLocalIntents.push_eq (H : Header) (t : ThreadLocalIntents) (s : DurState)
    (x : WriteIntent) (hinv : t.Inv) :
    ThreadLocalIntents.push H t s x =
      some (if t.n = 21 then
              ({ i := t.i.set 0 x, n := 1 }, (ThreadLocalIntents.unspool H t s).2)
            else ({ i := t.i.set t.n x, n := t.n + 1 }, s)) := by
  obtain ⟨_, hn⟩ := hinv
  have hN : (0 : Nat) < N := by decide
  unfold ThreadLocalIntents.push
  by_cases h21 : t.n = 21
  · simp only [h21, if_true, ThreadLocalIntents.unspool_fst, hN]
  · have hlt : t.n < N := by
      unfold N at hn ⊢
      omega
    simp only [h21, if_false, hlt, if_true]

/-- One buffer operation of a thread whose buffered ranges are proper and
separate from each other and from the ranges noted so far: it stays in
bounds, and the ranges noted followed by the buffer contents are those before
followed by the pushed range. -/
theorem BufOp.step_of_separate (limit : Nat) (debug : Bool) (t : ThreadLocalIntents)
    (s : DurState) (op : BufOp) (noted : List WriteIntent) (hinv : t.Inv)
    (hR : HoldsNoted s noted) (hgood : ∀ x ∈ noted ++ t.contents, x.Proper)
    (hsep : (noted ++ t.contents).Pairwise (fun a b => a.overlaps b = false)) :
    ∃ t1 s1 noted1, BufOp.step (specHeader limit debug) (t, s) op = some (t1, s1) ∧ t1.Inv ∧
      HoldsNoted s1 noted1 ∧ noted1 ++ t1.contents = noted ++ t.contents ++ pushedOf [op] := by
  have hN : (0 : Nat) < N := by decide
  have hpos : 0 < t.i.length := by rw [hinv.1]; exact hN
  cases op with
  | push x =>
    simp only [BufOp.step, ThreadLocalIntents.push_eq _ t s x hinv, pushedOf]
    by_cases h21 : t.n = 21
    · simp only [h21, if_true]
      refine ⟨_, _, noted ++ t.contents, rfl, ⟨by simp [hinv.1], by simp [N]⟩, ?_, ?_⟩
      · exact ThreadLocalIntents.unspool_of_separate limit debug t s noted hR hgood hsep
      · have := take_set_succ t.i 0 x hpos
        simp only [ThreadLocalIntents.contents] at this ⊢
        simpa using this
    · simp only [h21, if_false]
      have hlt : t.n < N := by
        have := hinv.2
        unfold N at this ⊢
        omega
      refine ⟨_, _, noted, rfl, ⟨by simp [hinv.1], by simp only; omega⟩, hR, ?_⟩
      simp only [ThreadLocalIntents.contents]
      rw [take_set_succ t.i t.n x (by rw [hinv.1]; exact hlt)]
      simp
  | unspool =>
    refine ⟨_, _, noted ++ t.contents, rfl, ThreadLocalIntents.unspool_inv _ t s hinv,
      ThreadLocalIntents.unspool_of_separate limit debug t s noted hR hgood hsep, ?_⟩
    show noted ++ t.contents
        ++ (ThreadLocalIntents.unspool (specHeader limit debug) t s).1.contents
      = noted ++ t.contents ++ pushedOf [BufOp.unspool]
    rw [ThreadLocalIntents.unspool_fst]
    simp [ThreadLocalIntents.contents, pushedOf]

theorem perm_insert_pushed (n1 t1 n t p ts : List WriteIntent) (h : n1 ++ t1 = n ++ t ++ p) :
    List.Perm (n1 ++ (t1 ++ ts)) (n ++ (t ++ ts) ++ p) := by
  rw [← List.append_assoc, h, ← Multiset.coe_eq_coe]
  simp only [← Multiset.coe_add]
  abel

theorem perm_skip_buffer (n1 b1 n t p ts : List WriteIntent)
    (h : List.Perm (n1 ++ b1) (n ++ ts ++ p)) :
    List.Perm (n1 ++ (t ++ b1)) (n ++ (t ++ ts) ++ p) := by
  rw [← Multiset.coe_eq_coe] at h ⊢
  simp only [← Multiset.coe_add] at h ⊢
  calc (n1 : Multiset WriteIntent) + (↑t + ↑b1) = (↑n1 + ↑b1) + ↑t := by abel
    _ = (↑n + ↑ts + ↑p) + ↑t := by rw [h]
    _ = _ := by abel

/-- One operation of thread `k`, when all ranges noted or buffered are proper
and pairwise separate: it stays in bounds, keeps the invariant of every
buffer, and the ranges noted or buffered afterwards are those before and the
pushed range, each once. -/
theorem stepAt_of_separate (limit : Nat) (debug : Bool) (bufs : List ThreadLocalIntents)
    (k : Nat) (op : BufOp) (s : DurState) (noted : List WriteIntent) (hk : k < bufs.length)
    (hinv : ∀ t ∈ bufs, t.Inv) (hR : HoldsNoted s noted)
    (hgood : ∀ x ∈ noted ++ buffered bufs, x.Proper)
    (hsep : (noted ++ buffered bufs).Pairwise (fun a b => a.overlaps b = false)) :
    ∃ bufs1 s1 noted1, stepAt (specHeader limit debug) bufs k op s = some (bufs1, s1) ∧
      bufs1.length = bufs.length ∧ (∀ t ∈ bufs1, t.Inv) ∧ HoldsNoted s1 noted1 ∧
      List.Perm (noted1 ++ buffered bufs1) (noted ++ buffered bufs ++ pushedOf [op]) := by
  induction bufs generalizing k with
  | nil => simp at hk
  | cons t ts ih =>
    simp only [buffered] at hgood hsep
    cases k with
    | zero =>
      have hsub : List.Sublist (noted ++ t.contents) (noted ++ (t.contents ++ buffered ts)) :=
        List.Sublist.append (List.Sublist.refl _) (List.sublist_append_left _ _)
      obtain ⟨t1, s1, noted1, hstep, hinv1, hR1, heq⟩ :=
        BufOp.step_of_separate limit debug t s op noted (hinv t (List.mem_cons_self _ _)) hR
          (fun x hx => hgood x (hsub.subset hx)) (hsep.sublist hsub)
      refine ⟨t1 :: ts, s1, noted1, ?_, rfl, ?_, hR1, ?_⟩
      · simp only [stepAt, hstep, Option.map_some']
      · intro u hu
        rcases List.mem_cons.mp hu with h | h
        · rw [h]; exact hinv1
        · exact hinv u (List.mem_cons_of_mem _ h)
      · simp only [buffered]
        exact perm_insert_pushed noted1 t1.contents noted t.contents (pushedOf [op])
          (buffered ts) heq
    | succ k =>
      have hsub : List.Sublist (noted ++ buffered ts) (noted ++ (t.contents ++ buffered ts)) :=
        List.Sublist.append (List.Sublist.refl _) (List.sublist_append_right _ _)
      obtain ⟨bufs1, s1, noted1, hstep, hlen1, hinv1, hR1, hperm⟩ :=
        ih k (by simpa using hk) (fun u hu => hinv u (List.mem_cons_of_mem _ hu))
          (fun x hx => hgood x (hsub.subset hx)) (hsep.sublist hsub)
      refine ⟨t :: bufs1, s1, noted1, ?_, by simp [hlen1], ?_, hR1, ?_⟩
      · simp only [stepAt, hstep, Option.map_some']
      · intro u hu
        rcases List.mem_cons.mp hu with h | h
        · rw [h]; exact hinv t (List.mem_cons_self _ _)
        · exact hinv1 u h
      · simp only [buffered]
        exact perm_skip_buffer noted1 (buffered bufs1) noted t.contents (pushedOf [op])
          (buffered ts) hperm

theorem pushedOf_cons (op : BufOp) (ops : List BufOp) :
    pushedOf (op :: ops) = pushedOf [op] ++ pushedOf ops := by
  cases op <;> simp [pushedOf]

/-- Every interleaving of pushes and unspools of proper, pairwise separate
ranges runs without an out-of-bounds store, and in the end the ranges in the
intent collection or still buffered are those held at the start and the pushed
ranges, each once. -/
theorem runThreads_of_separate (limit : Nat) (debug : Bool) (sched : List (Nat × BufOp))
    (bufs : List ThreadLocalIntents) (s : DurState) (noted : List WriteIntent)
    (hk : ∀ e ∈ sched, e.1 < bufs.length) (hinv : ∀ t ∈ bufs, t.Inv) (hR : HoldsNoted s noted)
    (hgood : ∀ x ∈ noted ++ buffered bufs ++ pushedBy sched, x.Proper)
    (hsep : (noted ++ buffered bufs ++ pushedBy sched).Pairwise
      (fun a b => a.overlaps b = false)) :
    ∃ bufs1 s1 noted1, runThreads (specHeader limit debug) sched (bufs, s) = some (bufs1, s1) ∧
      HoldsNoted s1 noted1 ∧
      List.Perm (noted1 ++ buffered bufs1) (noted ++ buffered bufs ++ pushedBy sched) := by
  induction sched generalizing bufs s noted with
  | nil =>
    refine ⟨bufs, s, noted, rfl, hR, ?_⟩
    simp [pushedBy, pushedOf]
  | cons e es ih =>
    have hpb : pushedBy (e :: es) = pushedOf [e.2] ++ pushedBy es := by
      simp only [pushedBy, List.map_cons]
      exact pushedOf_cons e.2 _
    rw [hpb] at hgood hsep ⊢
    have hsub : List.Sublist (noted ++ buffered bufs)
        (noted ++ buffered bufs ++ (pushedOf [e.2] ++ pushedBy es)) :=
      List.sublist_append_left _ _
    obtain ⟨bufs1, s1, noted1, hstep, hlen1, hinv1, hR1, hperm1⟩ :=
      stepAt_of_separate limit debug bufs e.1 e.2 s noted (hk e (List.mem_cons_self _ _)) hinv hR
        (fun x hx => hgood x (hsub.subset hx)) (hsep.sublist hsub)
    have hperm2 : List.Perm (noted1 ++ buffered bufs1 ++ pushedBy es)
        (noted ++ buffered bufs ++ (pushedOf [e.2] ++ pushedBy es)) := by
      rw [← List.append_assoc]
      exact hperm1.append_right _
    have hsymm : ∀ {a b : WriteIntent}, a.overlaps b = false → b.overlaps a = false := by
      intro a b h
      unfold WriteIntent.overlaps at h ⊢
      simp only [decide_eq_false_iff_not] at h ⊢
      exact fun hc => h ⟨hc.2, hc.1⟩
    obtain ⟨bufs2, s2, noted2, hrun, hR2, hperm3⟩ :=
      ih bufs1 s1 noted1
        (fun e1 he1 => by rw [hlen1]; exact hk e1 (List.mem_cons_of_mem _ he1)) hinv1 hR1
        (fun x hx => hgood x (hperm2.mem_iff.mp hx))
        ((hperm2.pairwise_iff hsymm).mpr hsep)
    refine ⟨bufs2, s2, noted2, ?_, hR2, hperm3.trans hperm2⟩
    simp only [runThreads, hstep]
    exact hrun

/-! ## The claims -/

/-- C1 (the code at a failing input): the intents `[0x100000000, +0x80001000)`
and `[0x180000000, +0x80000000)` are well formed and overlap, their bounding
interval spans `2^32` bytes, and `absorb` stores the length `0`: the result
is `p = 0x200000000, len = 0`, whose start `0x200000000` is not the minimum
`0x100000000` of the two starts. -/
theorem absorb_start_not_min_at_4GiB_span :
    (WriteIntent.make 4294967296 2147487744).WF ∧
    (WriteIntent.make 6442450944 2147483648).WF ∧
    (WriteIntent.make 4294967296 2147487744).overlaps
      (WriteIntent.make 6442450944 2147483648) = true ∧
    (WriteIntent.make 4294967296 2147487744).absorb (WriteIntent.make 6442450944 2147483648)
      = { p := 8589934592, len := 0 } ∧
    ((WriteIntent.make 4294967296 2147487744).absorb
      (WriteIntent.make 6442450944 2147483648)).start = 8589934592 ∧
    min (WriteIntent.make 4294967296 2147487744).start
      (WriteIntent.make 6442450944 2147483648).start = 4294967296 := by
  decide

/-- C2 (the code at a failing input): for the overlapping intents
`[0x100000000, +0x80001000)` and `[0x180000000, +0x80000000)` the interval
left by `absorb` contains neither of the two, so in a debug build the opening
`dassert(overlaps(other))` holds and the closing `dassert(contains(other))`
fails. -/
theorem absorb_closing_assert_fails_at_4GiB_span :
    (WriteIntent.make 4294967296 2147487744).overlaps
      (WriteIntent.make 6442450944 2147483648) = true ∧
    ((WriteIntent.make 4294967296 2147487744).absorb
      (WriteIntent.make 6442450944 2147483648)).contains
        (WriteIntent.make 6442450944 2147483648) = false ∧
    ((WriteIntent.make 4294967296 2147487744).absorb
      (WriteIntent.make 6442450944 2147483648)).contains
        (WriteIntent.make 4294967296 2147487744) = false ∧
    (WriteIntent.make 4294967296 2147487744).absorbChecked
      (WriteIntent.make 6442450944 2147483648) = none := by
  decide

/-- C3: for every sequence of `push` and `unspool` operations on a newly
constructed buffer, no store goes out of bounds, and the calls of
`CommitJob::note` issued so far (each with the start and length of a range)
followed by the buffer contents `i[0..n)` are the pushed ranges in push order;
after a final `unspool` the buffer is empty and `note` has been called exactly
once per pushed range, in push order. -/
theorem batching_keeps_push_order (H : Header) (ops : List BufOp) (s0 : DurState) :
    (∃ t s, runBuf H ops (ThreadLocalIntents.init, s0) = some (t, s) ∧
      ∃ flushed, s.noteCalls = s0.noteCalls ++ flushed.map noteArgs ∧
        flushed ++ t.contents = pushedOf ops) ∧
    (∃ t s, runBuf H (ops ++ [BufOp.unspool]) (ThreadLocalIntents.init, s0) = some (t, s) ∧
      t.n = 0 ∧ s.noteCalls = s0.noteCalls ++ (pushedOf ops).map noteArgs) := by
  obtain ⟨t, s, hr, _, fl, hc, hb⟩ :=
    runBuf_spec H ops ThreadLocalIntents.init s0 ThreadLocalIntents.init_inv
  have hb1 : fl ++ t.contents = pushedOf ops := by
    rw [hb]
    simp [ThreadLocalIntents.contents, ThreadLocalIntents.init]
  refine ⟨⟨t, s, hr, fl, hc, hb1⟩, ?_⟩
  refine ⟨(ThreadLocalIntents.unspool H t s).1, (ThreadLocalIntents.unspool H t s).2, ?_, ?_, ?_⟩
  · rw [runBuf_append, hr]
    simp [runBuf, BufOp.step]
  · rw [ThreadLocalIntents.unspool_fst]
  · rw [ThreadLocalIntents.unspool_noteCalls, hc, ← hb1]
    simp

/-- C4: starting from a newly constructed buffer, pushing 21 ranges leaves the
shared state untouched (no unspool, no call of `note`) with `n = 21` and the
21 ranges buffered; pushing a 22nd range runs one unspool, which notes the 21
ranges in push order, and leaves `n = 1` with the 22nd range in slot 0. -/
theorem push_threshold (H : Header) (s0 : DurState) (xs : List WriteIntent) (x : WriteIntent)
    (hlen : xs.length = 21) :
    ∃ t21, runBuf H (xs.map BufOp.push) (ThreadLocalIntents.init, s0) = some (t21, s0) ∧
      t21.n = 21 ∧ t21.contents = xs ∧
      ∃ t s, ThreadLocalIntents.push H t21 s0 x = some (t, s) ∧
        s = (ThreadLocalIntents.unspool H t21 s0).2 ∧
        s.noteCalls = s0.noteCalls ++ xs.map noteArgs ∧
        t.n = 1 ∧ t.contents = [x] ∧ t.i.head? = some x := by
  obtain ⟨t21, hr, hinv, hn, hc⟩ :=
    runBuf_pushes_fit H xs ThreadLocalIntents.init s0 ThreadLocalIntents.init_inv
      (by simp [ThreadLocalIntents.init, hlen, N])
  have hn21 : t21.n = 21 := by
    rw [hn, hlen]
    rfl
  have hc21 : t21.contents = xs := by
    rw [hc]
    simp [ThreadLocalIntents.contents, ThreadLocalIntents.init]
  refine ⟨t21, hr, hn21, hc21, ?_⟩
  have hN : (0 : Nat) < N := by decide
  have hpos : 0 < t21.i.length := by rw [hinv.1]; exact hN
  have hp : ThreadLocalIntents.push H t21 s0 x
      = some ({ i := t21.i.set 0 x, n := 1 }, (ThreadLocalIntents.unspool H t21 s0).2) := by
    unfold ThreadLocalIntents.push
    simp only [hn21, if_true, ThreadLocalIntents.unspool_fst, hN]
  refine ⟨_, _, hp, rfl, ?_, rfl, ?_, ?_⟩
  · rw [ThreadLocalIntents.unspool_noteCalls, hc21]
  · simp only [ThreadLocalIntents.contents]
    have := take_set_succ t21.i 0 x hpos
    simpa using this
  · cases hi : t21.i with
    | nil => rw [hi] at hpos; simp at hpos
    | cons a l => simp

/-- C4 at 21 ranges on one page and a 22nd on another. -/
theorem push_threshold_witness :
    (List.replicate 21 (WriteIntent.make 4096 8)).length = 21 ∧
    ∃ t21, runBuf (specHeader 100 false)
        ((List.replicate 21 (WriteIntent.make 4096 8)).map BufOp.push)
        (ThreadLocalIntents.init, DurState.init 0 0) = some (t21, DurState.init 0 0) ∧
      t21.n = 21 ∧ t21.contents = List.replicate 21 (WriteIntent.make 4096 8) ∧
      ∃ t s, ThreadLocalIntents.push (specHeader 100 false) t21 (DurState.init 0 0)
          (WriteIntent.make 8192 8) = some (t, s) ∧
        s = (ThreadLocalIntents.unspool (specHeader 100 false) t21 (DurState.init 0 0)).2 ∧
        s.noteCalls = (DurState.init 0 0).noteCalls
          ++ (List.replicate 21 (WriteIntent.make 4096 8)).map noteArgs ∧
        t.n = 1 ∧ t.contents = [WriteIntent.make 8192 8] ∧
        t.i.head? = some (WriteIntent.make 8192 8) :=
  ⟨by decide, push_threshold (specHeader 100 false) (DurState.init 0 0)
    (List.replicate 21 (WriteIntent.make 4096 8)) (WriteIntent.make 8192 8) (by decide)⟩

/-- C5: in every state reached from a newly constructed buffer by `push` and
`unspool`, the array has its `N = 21` slots and `0 ≤ n ≤ 21`; no store of a
`push` went out of bounds on the way, and a further `push` stores in bounds
too: it leaves `1 ≤ n ≤ 21`, and at capacity it first unspools to `n = 0`, so
that it leaves `n = 1`. -/
theorem buffer_never_exceeds_capacity (H : Header) (ops : List BufOp) (s0 : DurState) :
    ∃ t s, runBuf H ops (ThreadLocalIntents.init, s0) = some (t, s) ∧
      t.i.length = N ∧ t.n ≤ 21 ∧
      ∀ x, ∃ t1 s1, ThreadLocalIntents.push H t s x = some (t1, s1) ∧
        1 ≤ t1.n ∧ t1.n ≤ 21 ∧ (t.n = 21 → t1.n = 1) := by
  obtain ⟨t, s, hr, hinv, _⟩ :=
    runBuf_spec H ops ThreadLocalIntents.init s0 ThreadLocalIntents.init_inv
  refine ⟨t, s, hr, hinv.1, hinv.2, fun x => ?_⟩
  obtain ⟨t1, s1, hp, hinv1, h1, h21, _⟩ := ThreadLocalIntents.push_spec H t s x hinv
  exact ⟨t1, s1, hp, h1, hinv1.2, h21⟩

/-- C6: when the check-and-mark reports the range as already noted,
`CommitJob::note` leaves `_hasWritten`, the intent collection, the
durable-operation queue, `_bytes`, the remembered last page and the
warning-throttle state (`nComplains`, `lastComplain`, the log) unchanged; the
dedup set becomes the marked set.  This holds for every check-and-mark and
every insertion. -/
theorem note_deduplicated_is_noop (H : Header) (s : DurState) (p : Nat) (len : Int)
    (hdup : (H.checkAndSet s.commitJob._wi._alreadyNoted p len).1 = true) :
    (CommitJob.note H s p len).commitJob._hasWritten = s.commitJob._hasWritten ∧
    (CommitJob.note H s p len).commitJob._wi._intents = s.commitJob._wi._intents ∧
    (CommitJob.note H s p len).commitJob._wi._durOps = s.commitJob._wi._durOps ∧
    (CommitJob.note H s p len).commitJob._bytes = s.commitJob._bytes ∧
    (CommitJob.note H s p len).lastPos = s.lastPos ∧
    (CommitJob.note H s p len).nComplains = s.nComplains ∧
    (CommitJob.note H s p len).lastComplain = s.lastComplain ∧
    (CommitJob.note H s p len).log = s.log ∧
    (CommitJob.note H s p len).commitJob._nSinceCommitIfNeededCall
      = s.commitJob._nSinceCommitIfNeededCall ∧
    (CommitJob.note H s p len).privateMapBytes = s.privateMapBytes ∧
    (CommitJob.note H s p len).commitJob._wi._alreadyNoted
      = (H.checkAndSet s.commitJob._wi._alreadyNoted p len).2 := by
  rw [CommitJob.note_of_dup H s p len hdup]
  exact ⟨rfl, rfl, rfl, rfl, rfl, rfl, rfl, rfl, rfl, rfl, rfl⟩

/-- C6 at the second note of `(4096, 8)` after process start. -/
theorem note_deduplicated_is_noop_witness :
    ((specHeader 100 false).checkAndSet exNoted.commitJob._wi._alreadyNoted 4096 8).1 = true ∧
    (CommitJob.note (specHeader 100 false) exNoted 4096 8).commitJob._bytes
      = exNoted.commitJob._bytes ∧
    (CommitJob.note (specHeader 100 false) exNoted 4096 8).commitJob._wi._intents
      = exNoted.commitJob._wi._intents :=
  ⟨by decide,
   (note_deduplicated_is_noop (specHeader 100 false) exNoted 4096 8 (by decide)).2.2.2.1,
   (note_deduplicated_is_noop (specHeader 100 false) exNoted 4096 8 (by decide)).2.1⟩

/-- C7: with the check-and-mark and the merging insertion of the spec, a
second `note(p, len)` right after the first leaves the whole state as the
first left it, the call history apart: the intent collection, `_bytes`,
`_hasWritten` and the remembered page are those after the first note.  The
first note changes `_bytes` at most once (it is the old value or the old value
plus one rounded-up length), and from a freshly reset commit job the two notes
leave exactly one entry, the noted range, in the intent collection. -/
theorem note_twice_idempotent (limit : Nat) (debug : Bool) (s : DurState) (p : Nat) (len : Int) :
    CommitJob.note (specHeader limit debug) (CommitJob.note (specHeader limit debug) s p len) p len
      = { CommitJob.note (specHeader limit debug) s p len with
          noteCalls := s.noteCalls ++ [(p, len), (p, len)] } ∧
    ((CommitJob.note (specHeader limit debug) s p len).commitJob._bytes = s.commitJob._bytes ∨
     (CommitJob.note (specHeader limit debug) s p len).commitJob._bytes
       = (s.commitJob._bytes + maskPage (toU32 (len + 4095))) % SIZE) ∧
    (CommitJob.note (specHeader limit debug)
        (CommitJob.note (specHeader limit debug) (CommitJob.reset s) p len) p len
      ).commitJob._wi._intents = [WriteIntent.make p (toU32 len)] := by
  have hagain : ∀ s0 : DurState,
      CommitJob.note (specHeader limit debug) (CommitJob.note (specHeader limit debug) s0 p len)
        p len
      = { CommitJob.note (specHeader limit debug) s0 p len with
          noteCalls := s0.noteCalls ++ [(p, len), (p, len)] } := by
    intro s0
    have hset := CommitJob.note_alreadyNoted (specHeader limit debug) s0 p len
    have hchk : (specHeader limit debug).checkAndSet
        (CommitJob.note (specHeader limit debug) s0 p len).commitJob._wi._alreadyNoted p len
        = (true, (CommitJob.note (specHeader limit debug) s0 p len).commitJob._wi._alreadyNoted) := by
      rw [hset]
      exact Already.checkAndSet_again _ p len
    rw [CommitJob.note_of_dup _ (CommitJob.note (specHeader limit debug) s0 p len) p len
      (by rw [hchk])]
    rw [hchk, CommitJob.note_noteCalls]
    simp
  refine ⟨hagain s, ?_, ?_⟩
  · cases h : ((specHeader limit debug).checkAndSet s.commitJob._wi._alreadyNoted p len).1 with
    | true =>
      left
      rw [CommitJob.note_of_dup _ s p len h]
    | false =>
      by_cases hpage : maskPage p = s.lastPos
      · left
        exact ((CommitJob.note_bytes _ s p len h).2 hpage).1
      · right
        exact ((CommitJob.note_bytes _ s p len h).1 hpage).1
  · rw [hagain (CommitJob.reset s)]
    have hnew : ((specHeader limit debug).checkAndSet
        (CommitJob.reset s).commitJob._wi._alreadyNoted p len).1 = false := by
      simp [specHeader, CommitJob.reset, Writes.clear, Already.checkAndSet]
    show (CommitJob.note (specHeader limit debug) (CommitJob.reset s) p len).commitJob._wi._intents
      = [WriteIntent.make p (toU32 len)]
    rw [CommitJob.note_of_new _ _ p len hnew, (CommitJob.countBytes_frame _ _ p len).2.1]
    rfl

/-- C8 (the claim fails where `_bytes` wraps): with `_bytes = 2^64 - 4096`
and the remembered page `0`, the non-deduplicated `note(4096, 8192)` is on the
new page `4096` and leaves `_bytes = 4096`, which is not the old value plus
`8192`. -/
theorem note_bytes_not_increased_at_wrap :
    ((specHeader 100 false).checkAndSet exBytesHigh.commitJob._wi._alreadyNoted 4096 8192).1
      = false ∧
    maskPage 4096 ≠ exBytesHigh.lastPos ∧
    exBytesHigh.commitJob._bytes = 18446744073709547520 ∧
    (CommitJob.note (specHeader 100 false) exBytesHigh 4096 8192).commitJob._bytes = 4096 ∧
    (CommitJob.note (specHeader 100 false) exBytesHigh 4096 8192).commitJob._bytes
      ≠ exBytesHigh.commitJob._bytes + 8192 := by
  decide

/-- C8 (amended): for every non-deduplicated `note(p, len)` with
`0 < len ≤ 2^31 - 4096`, let `page` be `p` rounded down to a multiple of 4096
and `r` the smallest multiple of 4096 that is at least `len`.  If `page`
differs from the remembered last page, `_bytes` becomes
`(_bytes + r) mod 2^64`, which is `_bytes + r` when that sum is below `2^64`,
and the remembered page becomes `page`; if `page` is the remembered last page,
`_bytes` and the remembered page are unchanged. -/
theorem note_byte_accounting (H : Header) (s : DurState) (p : Nat) (len : Int)
    (hnew : (H.checkAndSet s.commitJob._wi._alreadyNoted p len).1 = false)
    (hpos : 0 < len) (hmax : len ≤ 2147483648 - 4096) :
    (4096 ∣ maskPage p ∧ maskPage p ≤ p ∧ p < maskPage p + 4096) ∧
    ∃ r : Nat,
      (4096 ∣ r ∧ len ≤ (r : Int) ∧ ∀ m : Nat, 4096 ∣ m → len ≤ (m : Int) → r ≤ m) ∧
      (maskPage p ≠ s.lastPos →
        (CommitJob.note H s p len).commitJob._bytes = (s.commitJob._bytes + r) % SIZE ∧
        (s.commitJob._bytes + r < SIZE →
          (CommitJob.note H s p len).commitJob._bytes = s.commitJob._bytes + r) ∧
        (CommitJob.note H s p len).lastPos = maskPage p) ∧
      (maskPage p = s.lastPos →
        (CommitJob.note H s p len).commitJob._bytes = s.commitJob._bytes ∧
        (CommitJob.note H s p len).lastPos = s.lastPos) := by
  refine ⟨by unfold maskPage; omega, maskPage (toU32 (len + 4095)), ?_, ?_, ?_⟩
  · have hu : toU32 (len + 4095) = (len + 4095).toNat := by
      unfold toU32
      rw [Int.emod_eq_of_lt (by omega) (by omega)]
    rw [hu]
    unfold maskPage
    refine ⟨by omega, by omega, ?_⟩
    intro m hm hle
    omega
  · intro hne
    obtain ⟨hb, hl⟩ := (CommitJob.note_bytes H s p len hnew).1 hne
    refine ⟨hb, ?_, hl⟩
    intro hlt
    rw [hb, Nat.mod_eq_of_lt hlt]
  · exact (CommitJob.note_bytes H s p len hnew).2

/-- C8 (amended) at the first `note(4096, 8)` after process start. -/
theorem note_byte_accounting_witness :
    ((specHeader 100 false).checkAndSet
      (DurState.init 0 0).commitJob._wi._alreadyNoted 4096 8).1 = false ∧
    (0 : Int) < 8 ∧ (8 : Int) ≤ 2147483648 - 4096 ∧
    ∃ r : Nat,
      (4096 ∣ r ∧ (8 : Int) ≤ (r : Int) ∧ ∀ m : Nat, 4096 ∣ m → (8 : Int) ≤ (m : Int) → r ≤ m) ∧
      (maskPage 4096 ≠ (DurState.init 0 0).lastPos →
        (CommitJob.note (specHeader 100 false) (DurState.init 0 0) 4096 8).commitJob._bytes
          = ((DurState.init 0 0).commitJob._bytes + r) % SIZE ∧
        ((DurState.init 0 0).commitJob._bytes + r < SIZE →
          (CommitJob.note (specHeader 100 false) (DurState.init 0 0) 4096 8).commitJob._bytes
            = (DurState.init 0 0).commitJob._bytes + r) ∧
        (CommitJob.note (specHeader 100 false) (DurState.init 0 0) 4096 8).lastPos
          = maskPage 4096) ∧
      (maskPage 4096 = (DurState.init 0 0).lastPos →
        (CommitJob.note (specHeader 100 false) (DurState.init 0 0) 4096 8).commitJob._bytes
          = (DurState.init 0 0).commitJob._bytes ∧
        (CommitJob.note (specHeader 100 false) (DurState.init 0 0) 4096 8).lastPos
          = (DurState.init 0 0).lastPos) :=
  ⟨by decide, by decide, by decide,
   (note_byte_accounting (specHeader 100 false) (DurState.init 0 0) 4096 8
      (by decide) (by decide) (by decide)).2⟩

/-- C9: with the check-and-mark of the spec, in every state of the commit job
reached from construction by `note`, `noteOp`, `beginCommit`, `reset` and
`unspool` (and moves of the clock), unspooling a buffer (an array of `N`
slots) with `n ≠ 0` leaves `_hasWritten = true`, also when every buffered
range is reported as already noted. -/
theorem unspool_sets_hasWritten (limit : Nat) (debug : Bool) (time0 : Int) (notifyNow : Nat)
    (ops : List AggOp) (t : ThreadLocalIntents) (hslots : t.i.length = N) (hn : t.n ≠ 0) :
    (ThreadLocalIntents.unspool (specHeader limit debug) t
      (runAgg (specHeader limit debug) ops (DurState.init time0 notifyNow))).2.commitJob._hasWritten
      = true := by
  have h0 : DedupImpliesWritten (DurState.init time0 notifyNow) := fun h => absurd rfl h
  have hinv := runAgg_inv limit debug ops _ h0
  exact (ThreadLocalIntents.unspool_hasWritten limit debug t _ hinv).2 hslots hn

/-- C9 at a buffer whose only range was already noted before: after
`note(4096, 8)`, `beginCommit` and nothing else, the unspool of the buffer
holding `[4096, 4104)` leaves `_hasWritten = true`. -/
theorem unspool_sets_hasWritten_witness :
    exBuffer.i.length = N ∧ exBuffer.n ≠ 0 ∧
    (ThreadLocalIntents.unspool (specHeader 100 false) exBuffer
      (runAgg (specHeader 100 false) [AggOp.note 4096 8, AggOp.beginCommit]
        (DurState.init 0 0))).2.commitJob._hasWritten = true :=
  ⟨by decide, by decide,
   unspool_sets_hasWritten 100 false 0 0 [AggOp.note 4096 8, AggOp.beginCommit] exBuffer
     (by decide) (by decide)⟩

/-- C10 (the claim fails where `privateMapBytes` wraps): with
`privateMapBytes = 2^64 - 4096` and `_bytes = 8192`, `reset()` leaves
`privateMapBytes = 4096`, which is not the sum of the two. -/
theorem reset_total_not_sum_at_wrap :
    exTotalHigh.privateMapBytes = 18446744073709547520 ∧
    exTotalHigh.commitJob._bytes = 8192 ∧
    (CommitJob.reset exTotalHigh).privateMapBytes = 4096 ∧
    (CommitJob.reset exTotalHigh).privateMapBytes
      ≠ exTotalHigh.privateMapBytes + exTotalHigh.commitJob._bytes := by
  decide

/-- C10 (amended): for every state with `_bytes = b` and
`privateMapBytes = t`, after `reset()` `_hasWritten` is false, the dedup set,
the intent collection and the durable-operation queue are empty, `_bytes = 0`,
`_nSinceCommitIfNeededCall = 0`, and `privateMapBytes = (t + b) mod 2^64`,
which is `t + b` when that sum is below `2^64`. -/
theorem reset_postcondition (s : DurState) :
    (CommitJob.reset s).commitJob._hasWritten = false ∧
    (CommitJob.reset s).commitJob._wi._alreadyNoted = [] ∧
    (CommitJob.reset s).commitJob._wi._intents = [] ∧
    (CommitJob.reset s).commitJob._wi._durOps = [] ∧
    (CommitJob.reset s).commitJob._bytes = 0 ∧
    (CommitJob.reset s).commitJob._nSinceCommitIfNeededCall = 0 ∧
    (CommitJob.reset s).privateMapBytes = (s.privateMapBytes + s.commitJob._bytes) % SIZE ∧
    (s.privateMapBytes + s.commitJob._bytes < SIZE →
      (CommitJob.reset s).privateMapBytes = s.privateMapBytes + s.commitJob._bytes) := by
  refine ⟨rfl, rfl, rfl, rfl, rfl, rfl, rfl, fun h => ?_⟩
  show (s.privateMapBytes + s.commitJob._bytes) % SIZE = s.privateMapBytes + s.commitJob._bytes
  exact Nat.mod_eq_of_lt h

/-- C10 (amended) at the reset that follows `note(4096, 8)` after process
start: the total becomes `0 + 4096`. -/
theorem reset_postcondition_witness :
    exNoted.privateMapBytes + exNoted.commitJob._bytes < SIZE ∧
    (CommitJob.reset exNoted).privateMapBytes
      = exNoted.privateMapBytes + exNoted.commitJob._bytes ∧
    (CommitJob.reset exNoted).privateMapBytes = 4096 :=
  ⟨by decide, (reset_postcondition exNoted).2.2.2.2.2.2.2 (by decide), by decide⟩

/-- C11: `CommitJob::noteOp` appends exactly its operation at the end of the
durable-operation queue and keeps the existing prefix, leaves `_hasWritten`
true, and leaves the intent collection, the dedup set and `_bytes` unchanged;
hence after a `reset()` the operations `o1, ..., ok` passed to `noteOp` with no
further reset make the queue `[o1, ..., ok]`, in call order, also when calls
of `note`, `beginCommit` and `unspool` come in between. -/
theorem noteOp_keeps_call_order (H : Header) (s : DurState) (op : DurOp) (ops : List DurOp)
    (aops : List AggOp) (hnr : AggOp.reset ∉ aops) :
    (CommitJob.noteOp s op).commitJob._wi._durOps = s.commitJob._wi._durOps ++ [op] ∧
    (CommitJob.noteOp s op).commitJob._hasWritten = true ∧
    (CommitJob.noteOp s op).commitJob._wi._intents = s.commitJob._wi._intents ∧
    (CommitJob.noteOp s op).commitJob._wi._alreadyNoted = s.commitJob._wi._alreadyNoted ∧
    (CommitJob.noteOp s op).commitJob._bytes = s.commitJob._bytes ∧
    (ops.foldl CommitJob.noteOp (CommitJob.reset s)).commitJob._wi._durOps = ops ∧
    (runAgg H aops (CommitJob.reset s)).commitJob._wi._durOps = noteOpsOf aops := by
  refine ⟨rfl, rfl, rfl, rfl, rfl, ?_, ?_⟩
  · have h : ∀ (l : List DurOp) (s0 : DurState),
        (l.foldl CommitJob.noteOp s0).commitJob._wi._durOps = s0.commitJob._wi._durOps ++ l := by
      intro l
      induction l with
      | nil => intro s0; simp
      | cons o l ih =>
        intro s0
        rw [List.foldl_cons, ih]
        simp [CommitJob.noteOp]
    rw [h]
    rfl
  · rw [runAgg_durOps H aops _ hnr]
    rfl

/-- C11 at the operations `7, 9` noted after a reset, with a `note` and a
`beginCommit` in between. -/
theorem noteOp_keeps_call_order_witness :
    AggOp.reset ∉ [AggOp.noteOp 7, AggOp.note 4096 8, AggOp.beginCommit, AggOp.noteOp 9] ∧
    (runAgg (specHeader 100 false)
      [AggOp.noteOp 7, AggOp.note 4096 8, AggOp.beginCommit, AggOp.noteOp 9]
      (CommitJob.reset exNoted)).commitJob._wi._durOps = [7, 9] :=
  ⟨by decide,
   (noteOp_keeps_call_order (specHeader 100 false) exNoted 7 [7, 9]
      [AggOp.noteOp 7, AggOp.note 4096 8, AggOp.beginCommit, AggOp.noteOp 9] (by decide)).2.2.2.2.2.2⟩

set_option maxRecDepth 100000

/-- C12 (the claim fails at the 100th breach): from process start with the
clock standing still, after 99 breaches 99 warnings were emitted and
`nComplains = 99`; the 100th breach (a recorded note on a new page that ends
over three times the limit) increments `nComplains` to 100, which is not below
100, and with no time elapsed emits no warning: the log still holds 99. -/
theorem hundredth_breach_not_unconditional :
    (exBreaches 99).nComplains = 99 ∧
    nWarnings (exBreaches 99).log = 99 ∧
    ((specHeader 0 false).checkAndSet (exBreaches 99).commitJob._wi._alreadyNoted 409600 1).1
      = false ∧
    maskPage 409600 ≠ (exBreaches 99).lastPos ∧
    (CommitJob.note (specHeader 0 false) (exBreaches 99) 409600 1).commitJob._bytes
      > (specHeader 0 false).UncommittedBytesLimit * 3 ∧
    (CommitJob.note (specHeader 0 false) (exBreaches 99) 409600 1).nComplains = 100 ∧
    nWarnings (CommitJob.note (specHeader 0 false) (exBreaches 99) 409600 1).log = 99 := by
  decide

/-- C12 (amended): each of the first 99 byte-budget breaches emits the DR102
warning whatever the clock and `lastComplain` are: when a recorded note on a
new page ends with `_bytes` over three times the limit and fewer than 99
breaches were counted before, the call counts the breach, emits exactly one
warning and sets `lastComplain` to the current time. -/
theorem first_99_breaches_unconditional (H : Header) (s : DurState) (p : Nat) (len : Int)
    (hnew : (H.checkAndSet s.commitJob._wi._alreadyNoted p len).1 = false)
    (hne : maskPage p ≠ s.lastPos)
    (hover : (s.commitJob._bytes + maskPage (toU32 (len + 4095))) % SIZE
      > H.UncommittedBytesLimit * 3)
    (hfirst : s.nComplains < 99) :
    (CommitJob.note H s p len).nComplains = s.nComplains + 1 ∧
    nWarnings (CommitJob.note H s p len).log = nWarnings s.log + 1 ∧
    (CommitJob.note H s p len).lastComplain = s.time0 := by
  obtain ⟨h1, h2, _⟩ := CommitJob.note_breach H s p len hnew hne hover
  have hmod : (s.nComplains + 1) % U32 = s.nComplains + 1 :=
    Nat.mod_eq_of_lt (by unfold U32; omega)
  have hc : (s.nComplains + 1) % U32 < 100 ∨ s.time0 - s.lastComplain ≥ 60 := by
    left
    rw [hmod]
    omega
  obtain ⟨ha, hb⟩ := h2 hc
  exact ⟨by rw [h1, hmod], hb, ha⟩

/-- C12 (amended) at the 99th breach of the run with the clock standing
still. -/
theorem first_99_breaches_unconditional_witness :
    ((specHeader 0 false).checkAndSet (exBreaches 98).commitJob._wi._alreadyNoted 405504 1).1
      = false ∧
    maskPage 405504 ≠ (exBreaches 98).lastPos ∧
    (exBreaches 98).nComplains < 99 ∧
    nWarnings (CommitJob.note (specHeader 0 false) (exBreaches 98) 405504 1).log
      = nWarnings (exBreaches 98).log + 1 :=
  ⟨by decide, by decide, by decide,
   (first_99_breaches_unconditional (specHeader 0 false) (exBreaches 98) 405504 1
      (by decide) (by decide) (by decide) (by decide)).2.1⟩

/-- C13 (the claim fails where the breach counter wraps): with
`nComplains = 2^32 - 1`, far beyond the first 100 breaches, and no time
elapsed since `lastComplain`, a breach increments the `unsigned` counter to 0,
which is below 100, and the warning is emitted. -/
theorem breach_emitted_within_cooldown_at_wrap :
    exCounterHigh.nComplains = 4294967295 ∧
    exCounterHigh.time0 - exCounterHigh.lastComplain = 0 ∧
    ((specHeader 0 false).checkAndSet exCounterHigh.commitJob._wi._alreadyNoted 4096 1).1
      = false ∧
    maskPage 4096 ≠ exCounterHigh.lastPos ∧
    (CommitJob.note (specHeader 0 false) exCounterHigh 4096 1).commitJob._bytes
      > (specHeader 0 false).UncommittedBytesLimit * 3 ∧
    (CommitJob.note (specHeader 0 false) exCounterHigh 4096 1).nComplains = 0 ∧
    nWarnings (CommitJob.note (specHeader 0 false) exCounterHigh 4096 1).log
      = nWarnings exCounterHigh.log + 1 := by
  decide

/-- C13 (amended): for every byte-budget breach whose incremented counter
`nComplains` (an `unsigned`) is at least 100, that is from the 100th breach on
until the counter wraps, the warning is emitted if and only if at least 60
seconds have elapsed since `lastComplain`; a suppressed breach leaves
`lastComplain` and the number of warnings unchanged, an emitted one adds
exactly one warning and sets `lastComplain` to the current time. -/
theorem cooldown_after_first_breaches (H : Header) (s : DurState) (p : Nat) (len : Int)
    (hnew : (H.checkAndSet s.commitJob._wi._alreadyNoted p len).1 = false)
    (hne : maskPage p ≠ s.lastPos)
    (hover : (s.commitJob._bytes + maskPage (toU32 (len + 4095))) % SIZE
      > H.UncommittedBytesLimit * 3)
    (hlate : 100 ≤ (s.nComplains + 1) % U32) :
    (nWarnings (CommitJob.note H s p len).log = nWarnings s.log + 1
      ↔ s.time0 - s.lastComplain ≥ 60) ∧
    (s.time0 - s.lastComplain ≥ 60 →
      nWarnings (CommitJob.note H s p len).log = nWarnings s.log + 1 ∧
      (CommitJob.note H s p len).lastComplain = s.time0) ∧
    (¬ s.time0 - s.lastComplain ≥ 60 →
      nWarnings (CommitJob.note H s p len).log = nWarnings s.log ∧
      (CommitJob.note H s p len).lastComplain = s.lastComplain) := by
  obtain ⟨_, h2, h3⟩ := CommitJob.note_breach H s p len hnew hne hover
  have hyes : s.time0 - s.lastComplain ≥ 60 →
      nWarnings (CommitJob.note H s p len).log = nWarnings s.log + 1 ∧
      (CommitJob.note H s p len).lastComplain = s.time0 := by
    intro ht
    obtain ⟨ha, hb⟩ := h2 (Or.inr ht)
    exact ⟨hb, ha⟩
  have hno : ¬ s.time0 - s.lastComplain ≥ 60 →
      nWarnings (CommitJob.note H s p len).log = nWarnings s.log ∧
      (CommitJob.note H s p len).lastComplain = s.lastComplain := by
    intro ht
    have hc : ¬ ((s.nComplains + 1) % U32 < 100 ∨ s.time0 - s.lastComplain ≥ 60) := by
      intro h
      rcases h with h | h
      · omega
      · exact ht h
    obtain ⟨ha, hb⟩ := h3 hc
    exact ⟨hb, ha⟩
  refine ⟨⟨fun hw => ?_, fun ht => (hyes ht).1⟩, hyes, hno⟩
  by_contra ht
  have := (hno ht).1
  omega

/-- C13 (amended) at the 101st breach: with no time elapsed it is suppressed,
and 60 seconds after the last emitted warning it is emitted. -/
theorem cooldown_after_first_breaches_witness :
    (((specHeader 0 false).checkAndSet (exBreaches 100).commitJob._wi._alreadyNoted 413696 1).1
      = false ∧
     maskPage 413696 ≠ (exBreaches 100).lastPos ∧
     100 ≤ ((exBreaches 100).nComplains + 1) % U32 ∧
     ¬ (exBreaches 100).time0 - (exBreaches 100).lastComplain ≥ 60 ∧
     nWarnings (CommitJob.note (specHeader 0 false) (exBreaches 100) 413696 1).log
       = nWarnings (exBreaches 100).log) ∧
    (exAfterCooldown.time0 - exAfterCooldown.lastComplain ≥ 60 ∧
     nWarnings (CommitJob.note (specHeader 0 false) exAfterCooldown 413696 1).log
       = nWarnings exAfterCooldown.log + 1 ∧
     (CommitJob.note (specHeader 0 false) exAfterCooldown 413696 1).lastComplain = 60) :=
  ⟨⟨by decide, by decide, by decide, by decide,
    ((cooldown_after_first_breaches (specHeader 0 false) (exBreaches 100) 413696 1
      (by decide) (by decide) (by decide) (by decide)).2.2 (by decide)).1⟩,
   ⟨by decide,
    (cooldown_after_first_breaches (specHeader 0 false) exAfterCooldown 413696 1
      (by decide) (by decide) (by decide) (by decide)).2.1 (by decide)⟩⟩

/-- C14: `CommitJob::note` is a total function, and what it leaves in
`_hasWritten`, the three collections, `_bytes` and the remembered last page
depends only on those parts of the state and on the arguments: two runs from
states that agree on them, under headers with the same check-and-mark and
insertion but any `UncommittedBytesLimit` and build kind, and with any
`nComplains`, `lastComplain` and clock, end with the same `_hasWritten`,
collections, `_bytes` and remembered last page. -/
theorem budget_is_only_a_signal (H1 H2 : Header) (s1 s2 : DurState) (p : Nat) (len : Int)
    (hcas : H1.checkAndSet = H2.checkAndSet)
    (hins : H1.insertWriteIntent = H2.insertWriteIntent)
    (hw : s1.commitJob._hasWritten = s2.commitJob._hasWritten)
    (hwi : s1.commitJob._wi = s2.commitJob._wi)
    (hb : s1.commitJob._bytes = s2.commitJob._bytes)
    (hl : s1.lastPos = s2.lastPos) :
    (CommitJob.note H1 s1 p len).commitJob._hasWritten
      = (CommitJob.note H2 s2 p len).commitJob._hasWritten ∧
    (CommitJob.note H1 s1 p len).commitJob._wi = (CommitJob.note H2 s2 p len).commitJob._wi ∧
    (CommitJob.note H1 s1 p len).commitJob._bytes
      = (CommitJob.note H2 s2 p len).commitJob._bytes ∧
    (CommitJob.note H1 s1 p len).lastPos = (CommitJob.note H2 s2 p len).lastPos := by
  have key : ∀ (H : Header) (s : DurState),
      (CommitJob.note H s p len).commitJob._hasWritten
        = (if (H.checkAndSet s.commitJob._wi._alreadyNoted p len).1 then
            s.commitJob._hasWritten else true) ∧
      (CommitJob.note H s p len).commitJob._wi
        = (if (H.checkAndSet s.commitJob._wi._alreadyNoted p len).1 then
            { s.commitJob._wi with
              _alreadyNoted := (H.checkAndSet s.commitJob._wi._alreadyNoted p len).2 }
           else
            { s.commitJob._wi with
              _alreadyNoted := (H.checkAndSet s.commitJob._wi._alreadyNoted p len).2
              _intents := H.insertWriteIntent s.commitJob._wi._intents p len }) ∧
      (CommitJob.note H s p len).commitJob._bytes
        = (if (H.checkAndSet s.commitJob._wi._alreadyNoted p len).1 then s.commitJob._bytes
           else if maskPage p ≠ s.lastPos then
            (s.commitJob._bytes + maskPage (toU32 (len + 4095))) % SIZE
           else s.commitJob._bytes) ∧
      (CommitJob.note H s p len).lastPos
        = (if (H.checkAndSet s.commitJob._wi._alreadyNoted p len).1 then s.lastPos
           else if maskPage p ≠ s.lastPos then maskPage p else s.lastPos) := by
    intro H s
    cases h : (H.checkAndSet s.commitJob._wi._alreadyNoted p len).1 with
    | true =>
      rw [CommitJob.note_of_dup H s p len h]
      exact ⟨rfl, rfl, rfl, rfl⟩
    | false =>
      simp only [Bool.false_eq_true, if_false]
      by_cases hp : maskPage p = s.lastPos
      · rw [CommitJob.note_same_page H s p len h hp]
        simp only [hp, ne_eq, not_true_eq_false, if_false]
        exact ⟨rfl, rfl, rfl, rfl⟩
      · have hf := CommitJob.countBytes_frame H (CommitJob.inserted H s p len) p len
        have hbb := (CommitJob.note_bytes H s p len h).1 hp
        rw [CommitJob.note_eq_countBytes H s p len h] at hbb ⊢
        simp only [ne_eq, hp, not_false_eq_true, if_true]
        exact ⟨hf.1, hf.2.1, hbb.1, hbb.2⟩
  obtain ⟨a1, a2, a3, a4⟩ := key H1 s1
  obtain ⟨b1, b2, b3, b4⟩ := key H2 s2
  rw [a1, a2, a3, a4, b1, b2, b3, b4, hcas, hins, hw, hwi, hb, hl]
  exact ⟨rfl, rfl, rfl, rfl⟩

/-- C14 at `note(8192, 8)` from two states that differ in the warning
counters and the clock, under the limits 0 and 1000000: the first run is a
breach and the second is not, and both end with `_bytes = 8192`. -/
theorem budget_is_only_a_signal_witness :
    (specHeader 0 false).checkAndSet = (specHeader 1000000 true).checkAndSet ∧
    (specHeader 0 false).insertWriteIntent = (specHeader 1000000 true).insertWriteIntent ∧
    exNoted.commitJob._hasWritten = exNotedLater.commitJob._hasWritten ∧
    exNoted.commitJob._wi = exNotedLater.commitJob._wi ∧
    exNoted.commitJob._bytes = exNotedLater.commitJob._bytes ∧
    exNoted.lastPos = exNotedLater.lastPos ∧
    (CommitJob.note (specHeader 0 false) exNoted 8192 8).commitJob._bytes
      = (CommitJob.note (specHeader 1000000 true) exNotedLater 8192 8).commitJob._bytes ∧
    (CommitJob.note (specHeader 0 false) exNoted 8192 8).commitJob._wi
      = (CommitJob.note (specHeader 1000000 true) exNotedLater 8192 8).commitJob._wi :=
  ⟨rfl, rfl, rfl, rfl, rfl, rfl,
   (budget_is_only_a_signal (specHeader 0 false) (specHeader 1000000 true) exNoted exNotedLater
      8192 8 rfl rfl rfl rfl rfl rfl).2.2.1,
   (budget_is_only_a_signal (specHeader 0 false) (specHeader 1000000 true) exNoted exNotedLater
      8192 8 rfl rfl rfl rfl rfl rfl).2.1⟩

/-- C15: `CommitJob::beginCommit` assigns the current value of the
commit-sequence generator (`_notify.now()`) to `_commitNumber`, increments the
commit-count statistic by one, and leaves `_hasWritten`, the three
collections, `_bytes` and `privateMapBytes` unchanged. -/
theorem beginCommit_stamps_and_counts (s : DurState) :
    (CommitJob.beginCommit s).commitJob._commitNumber = s.notifyNow ∧
    (CommitJob.beginCommit s).commits = s.commits + 1 ∧
    (CommitJob.beginCommit s).commitJob._hasWritten = s.commitJob._hasWritten ∧
    (CommitJob.beginCommit s).commitJob._wi = s.commitJob._wi ∧
    (CommitJob.beginCommit s).commitJob._bytes = s.commitJob._bytes ∧
    (CommitJob.beginCommit s).privateMapBytes = s.privateMapBytes ∧
    (CommitJob.beginCommit s).notifyNow = s.notifyNow :=
  ⟨rfl, rfl, rfl, rfl, rfl, rfl, rfl⟩

/-- C17 (the claim fails on the remembered page): after `note(4096, 8)` with
`UncommittedBytesLimit = 0`, `_bytes = 4096` is over three times the limit and
the remembered page is `4096`; the recorded `note(4100, 8)` lies on that page,
ends with `_bytes` still over the limit, and makes no budget check:
`nComplains` and the log are unchanged. -/
theorem no_budget_check_on_remembered_page :
    ((specHeader 0 false).checkAndSet exOverBudget.commitJob._wi._alreadyNoted 4100 8).1
      = false ∧
    maskPage 4100 = exOverBudget.lastPos ∧
    (CommitJob.note (specHeader 0 false) exOverBudget 4100 8).commitJob._bytes
      > (specHeader 0 false).UncommittedBytesLimit * 3 ∧
    (CommitJob.note (specHeader 0 false) exOverBudget 4100 8).nComplains
      = exOverBudget.nComplains ∧
    (CommitJob.note (specHeader 0 false) exOverBudget 4100 8).log = exOverBudget.log := by
  decide

/-- C17 (amended): for every call of `note` whose range is not reported as
already noted: if the range's page differs from the remembered last page and
`_bytes` exceeds three times the limit after the addition, the call counts a
breach (`++nComplains`) and emits the warning subject to the throttle; if the
page differs and `_bytes` stays within the limit, or if the range lies on the
remembered last page (where no budget check is made), the throttle state and
the number of warnings are unchanged. -/
theorem budget_check_on_new_page_only (H : Header) (s : DurState) (p : Nat) (len : Int)
    (hnew : (H.checkAndSet s.commitJob._wi._alreadyNoted p len).1 = false) :
    (maskPage p ≠ s.lastPos →
      (CommitJob.note H s p len).commitJob._bytes > H.UncommittedBytesLimit * 3 →
      (CommitJob.note H s p len).nComplains = (s.nComplains + 1) % U32 ∧
      (((s.nComplains + 1) % U32 < 100 ∨ s.time0 - s.lastComplain ≥ 60) →
        (CommitJob.note H s p len).lastComplain = s.time0 ∧
        nWarnings (CommitJob.note H s p len).log = nWarnings s.log + 1) ∧
      (¬ ((s.nComplains + 1) % U32 < 100 ∨ s.time0 - s.lastComplain ≥ 60) →
        (CommitJob.note H s p len).lastComplain = s.lastComplain ∧
        nWarnings (CommitJob.note H s p len).log = nWarnings s.log)) ∧
    (maskPage p ≠ s.lastPos →
      ¬ (CommitJob.note H s p len).commitJob._bytes > H.UncommittedBytesLimit * 3 →
      (CommitJob.note H s p len).nComplains = s.nComplains ∧
      (CommitJob.note H s p len).lastComplain = s.lastComplain ∧
      nWarnings (CommitJob.note H s p len).log = nWarnings s.log) ∧
    (maskPage p = s.lastPos →
      (CommitJob.note H s p len).nComplains = s.nComplains ∧
      (CommitJob.note H s p len).lastComplain = s.lastComplain ∧
      (CommitJob.note H s p len).log = s.log ∧
      (CommitJob.note H s p len).commitJob._bytes = s.commitJob._bytes) := by
  refine ⟨?_, ?_, ?_⟩
  · intro hne hover
    rw [((CommitJob.note_bytes H s p len hnew).1 hne).1] at hover
    exact CommitJob.note_breach H s p len hnew hne hover
  · intro hne hle
    rw [((CommitJob.note_bytes H s p len hnew).1 hne).1] at hle
    exact CommitJob.note_no_breach H s p len hnew (Or.inr hle)
  · intro heq
    rw [CommitJob.note_same_page H s p len hnew heq]
    exact ⟨rfl, rfl, rfl, rfl⟩

/-- C17 (amended) at the two notes after process start with
`UncommittedBytesLimit = 0`: `note(8192, 8)` on a new page counts a breach,
`note(4100, 8)` on the remembered page does not. -/
theorem budget_check_on_new_page_only_witness :
    (((specHeader 0 false).checkAndSet exOverBudget.commitJob._wi._alreadyNoted 8192 8).1
      = false ∧
     maskPage 8192 ≠ exOverBudget.lastPos ∧
     (CommitJob.note (specHeader 0 false) exOverBudget 8192 8).commitJob._bytes
       > (specHeader 0 false).UncommittedBytesLimit * 3 ∧
     (CommitJob.note (specHeader 0 false) exOverBudget 8192 8).nComplains
       = (exOverBudget.nComplains + 1) % U32) ∧
    (((specHeader 0 false).checkAndSet exOverBudget.commitJob._wi._alreadyNoted 4100 8).1
      = false ∧
     maskPage 4100 = exOverBudget.lastPos ∧
     (CommitJob.note (specHeader 0 false) exOverBudget 4100 8).nComplains
       = exOverBudget.nComplains) :=
  ⟨⟨by decide, by decide, by decide,
    ((budget_check_on_new_page_only (specHeader 0 false) exOverBudget 8192 8 (by decide)).1
      (by decide) (by decide)).1⟩,
   ⟨by decide, by decide,
    ((budget_check_on_new_page_only (specHeader 0 false) exOverBudget 4100 8 (by decide)).2.2
      (by decide)).1⟩⟩

/-- C18: `CommitJob::reset` keeps the remembered last page `lastPos`; hence a
first note after `reset()` that is not reported as already noted and whose
page is the remembered one sets `_hasWritten`, inserts the range into the
emptied intent collection and leaves `_bytes` at 0. -/
theorem last_page_survives_reset (H : Header) (s : DurState) (p : Nat) (len : Int)
    (hnew : (H.checkAndSet [] p len).1 = false) (hpage : maskPage p = s.lastPos) :
    (CommitJob.reset s).lastPos = s.lastPos ∧
    (CommitJob.note H (CommitJob.reset s) p len).commitJob._hasWritten = true ∧
    (CommitJob.note H (CommitJob.reset s) p len).commitJob._wi._intents
      = H.insertWriteIntent [] p len ∧
    (CommitJob.note H (CommitJob.reset s) p len).commitJob._bytes = 0 ∧
    (CommitJob.note H (CommitJob.reset s) p len).lastPos = s.lastPos := by
  have hnew1 : (H.checkAndSet (CommitJob.reset s).commitJob._wi._alreadyNoted p len).1 = false :=
    hnew
  have hpage1 : maskPage p = (CommitJob.reset s).lastPos := hpage
  rw [CommitJob.note_same_page H (CommitJob.reset s) p len hnew1 hpage1]
  exact ⟨rfl, rfl, rfl, rfl, rfl⟩

/-- C18 at `note(4100, 8)` after the reset that follows `note(4096, 8)`: the
page `4096` is still remembered and `_bytes` stays 0. -/
theorem last_page_survives_reset_witness :
    ((specHeader 100 false).checkAndSet [] 4100 8).1 = false ∧
    maskPage 4100 = exNoted.lastPos ∧
    (CommitJob.note (specHeader 100 false) (CommitJob.reset exNoted) 4100 8).commitJob._bytes
      = 0 ∧
    (CommitJob.note (specHeader 100 false) (CommitJob.reset exNoted) 4100 8).commitJob._hasWritten
      = true :=
  ⟨by decide, by decide,
   (last_page_survives_reset (specHeader 100 false) exNoted 4100 8 (by decide)
      (by decide)).2.2.2.1,
   (last_page_survives_reset (specHeader 100 false) exNoted 4100 8 (by decide) (by decide)).2.1⟩

/-- C19 (the code at a failing input): for the well-formed overlapping intents
`[0x100000000, +0x80001000)` and `[0x180000000, +0x80000000)`, whose bounding
interval spans `2^32` bytes, `absorb` stores the length `0`, which is below
the larger of the two lengths; the sum of the two lengths is not below
`2^32`. -/
theorem absorb_length_below_max_at_4GiB_span :
    (WriteIntent.make 4294967296 2147487744).WF ∧
    (WriteIntent.make 6442450944 2147483648).WF ∧
    (WriteIntent.make 4294967296 2147487744).overlaps
      (WriteIntent.make 6442450944 2147483648) = true ∧
    ((WriteIntent.make 4294967296 2147487744).absorb
      (WriteIntent.make 6442450944 2147483648)).length = 0 ∧
    max (WriteIntent.make 4294967296 2147487744).length
      (WriteIntent.make 6442450944 2147483648).length = 2147487744 ∧
    ¬ (max (WriteIntent.make 4294967296 2147487744).length
        (WriteIntent.make 6442450944 2147483648).length
      ≤ ((WriteIntent.make 4294967296 2147487744).absorb
          (WriteIntent.make 6442450944 2147483648)).length) ∧
    max (WriteIntent.make 4294967296 2147487744).end (WriteIntent.make 6442450944 2147483648).end
      - min (WriteIntent.make 4294967296 2147487744).start
          (WriteIntent.make 6442450944 2147483648).start = 4294967296 ∧
    ¬ ((WriteIntent.make 4294967296 2147487744).length
        + (WriteIntent.make 6442450944 2147483648).length < U32) := by
  decide

/-- C20: with no `size_t` overflow, the counted bytes
`privateMapBytes + _bytes` are left unchanged by `reset()`, `noteOp()` and
`beginCommit()` and are not decreased by `note()`; over every sequence of
operations from process start whose notes add less than `2^64` in total, the
counted bytes never decrease from a prefix to the whole sequence, they equal
the total of the amounts the notes added to `_bytes`, and after a `reset()`
`privateMapBytes` equals that total. -/
theorem counted_bytes_never_lost (H : Header) (s : DurState) (op : DurOp) (p : Nat) (len : Int)
    (time0 : Int) (notifyNow : Nat) (ops1 ops2 : List AggOp)
    (hfit : totalAdded H (ops1 ++ ops2) (DurState.init time0 notifyNow) < SIZE) :
    (s.countedBytes < SIZE → (CommitJob.reset s).countedBytes = s.countedBytes) ∧
    (CommitJob.noteOp s op).countedBytes = s.countedBytes ∧
    (CommitJob.beginCommit s).countedBytes = s.countedBytes ∧
    (s.countedBytes + CommitJob.added H s p len < SIZE →
      (CommitJob.note H s p len).countedBytes = s.countedBytes + CommitJob.added H s p len ∧
      s.countedBytes ≤ (CommitJob.note H s p len).countedBytes) ∧
    (runAgg H ops1 (DurState.init time0 notifyNow)).countedBytes
      ≤ (runAgg H (ops1 ++ ops2) (DurState.init time0 notifyNow)).countedBytes ∧
    (runAgg H (ops1 ++ ops2) (DurState.init time0 notifyNow)).countedBytes
      = totalAdded H (ops1 ++ ops2) (DurState.init time0 notifyNow) ∧
    (CommitJob.reset (runAgg H (ops1 ++ ops2) (DurState.init time0 notifyNow))).privateMapBytes
      = totalAdded H (ops1 ++ ops2) (DurState.init time0 notifyNow) ∧
    (CommitJob.reset (runAgg H (ops1 ++ ops2) (DurState.init time0 notifyNow))).commitJob._bytes
      = 0 := by
  have h0 : (DurState.init time0 notifyNow).countedBytes = 0 := rfl
  have hall := runAgg_countedBytes H (ops1 ++ ops2) (DurState.init time0 notifyNow)
    (by rw [h0]; omega)
  rw [h0, Nat.zero_add] at hall
  have happ := totalAdded_append H ops1 ops2 (DurState.init time0 notifyNow)
  have hpre := runAgg_countedBytes H ops1 (DurState.init time0 notifyNow)
    (by rw [h0]; omega)
  rw [h0, Nat.zero_add] at hpre
  refine ⟨?_, rfl, rfl, ?_, ?_, hall, ?_, rfl⟩
  · intro hs
    have := AggOp.step_countedBytes H s AggOp.reset (by simpa [AggOp.added] using hs)
    simpa [AggOp.step, AggOp.added] using this
  · intro hs
    have := CommitJob.note_countedBytes H s p len hs
    exact ⟨this, by omega⟩
  · rw [hall, hpre, happ]
    omega
  · show ((runAgg H (ops1 ++ ops2) (DurState.init time0 notifyNow)).privateMapBytes
        + (runAgg H (ops1 ++ ops2) (DurState.init time0 notifyNow)).commitJob._bytes) % SIZE = _
    have hc : (runAgg H (ops1 ++ ops2) (DurState.init time0 notifyNow)).privateMapBytes
        + (runAgg H (ops1 ++ ops2) (DurState.init time0 notifyNow)).commitJob._bytes
        = totalAdded H (ops1 ++ ops2) (DurState.init time0 notifyNow) := hall
    rw [hc]
    exact Nat.mod_eq_of_lt hfit

/-- C20 at two notes on two pages, a reset, and a third note: the notes add
`4096 + 8192 + 4096` bytes, which is the counted total at the end. -/
theorem counted_bytes_never_lost_witness :
    totalAdded (specHeader 100 false)
      ([AggOp.note 4096 8, AggOp.note 8192 5000] ++ [AggOp.reset, AggOp.note 12288 1])
      (DurState.init 0 0) < SIZE ∧
    (runAgg (specHeader 100 false)
      ([AggOp.note 4096 8, AggOp.note 8192 5000] ++ [AggOp.reset, AggOp.note 12288 1])
      (DurState.init 0 0)).countedBytes = 16384 ∧
    (runAgg (specHeader 100 false) [AggOp.note 4096 8, AggOp.note 8192 5000]
      (DurState.init 0 0)).countedBytes
      ≤ (runAgg (specHeader 100 false)
          ([AggOp.note 4096 8, AggOp.note 8192 5000] ++ [AggOp.reset, AggOp.note 12288 1])
          (DurState.init 0 0)).countedBytes :=
  ⟨by decide,
   ((counted_bytes_never_lost (specHeader 100 false) exNoted 7 4096 8 0 0
      [AggOp.note 4096 8, AggOp.note 8192 5000] [AggOp.reset, AggOp.note 12288 1]
      (by decide)).2.2.2.2.2.1).trans (by decide),
   (counted_bytes_never_lost (specHeader 100 false) exNoted 7 4096 8 0 0
      [AggOp.note 4096 8, AggOp.note 8192 5000] [AggOp.reset, AggOp.note 12288 1]
      (by decide)).2.2.2.2.1⟩

/-- C16: with the check-and-mark and the insertion of the spec, for every
interleaving of the `push` and `unspool` operations of `n` threads on a
freshly reset commit job (a `push` is thread-private, an `unspool` runs as a
whole under `groupCommitMutex`), when the pushed ranges are proper and
pairwise disjoint: no store goes out of bounds, the ranges in the intent
collection together with those still buffered are the pushed ranges, each
once, and once every buffer is unspooled the intent collection holds exactly
the pushed ranges, each once and pairwise disjoint, so that it covers the
same addresses as the pushed ranges. -/
theorem concurrent_flush_is_union (limit : Nat) (debug : Bool) (n : Nat)
    (sched : List (Nat × BufOp)) (s0 : DurState)
    (hk : ∀ e ∈ sched, e.1 < n)
    (hgood : ∀ w ∈ pushedBy sched, w.Proper)
    (hsep : (pushedBy sched).Pairwise (fun a b => a.overlaps b = false)) :
    ∃ bufs s,
      runThreads (specHeader limit debug) sched
        (List.replicate n ThreadLocalIntents.init, CommitJob.reset s0) = some (bufs, s) ∧
      List.Perm (s.commitJob._wi._intents ++ buffered bufs) (pushedBy sched) ∧
      ((∀ t ∈ bufs, t.n = 0) →
        List.Perm s.commitJob._wi._intents (pushedBy sched) ∧
        s.commitJob._wi._intents.Pairwise (fun a b => a.overlaps b = false) ∧
        ∀ a, Covered s.commitJob._wi._intents a ↔ Covered (pushedBy sched) a) := by
  have hempty : ∀ bufs : List ThreadLocalIntents, (∀ t ∈ bufs, t.n = 0) → buffered bufs = [] := by
    intro bufs
    induction bufs with
    | nil => intro _; rfl
    | cons t ts ih =>
      intro h
      simp only [buffered]
      rw [ih (fun u hu => h u (List.mem_cons_of_mem _ hu))]
      simp [ThreadLocalIntents.contents, h t (List.mem_cons_self _ _)]
  have hinit : ∀ t ∈ List.replicate n ThreadLocalIntents.init, t.n = 0 := by
    intro t ht
    rw [(List.mem_replicate.mp ht).2]
    rfl
  have hb0 := hempty _ hinit
  have hR0 : HoldsNoted (CommitJob.reset s0) [] := ⟨rfl, rfl⟩
  obtain ⟨bufs, s, noted, hrun, hR, hperm⟩ :=
    runThreads_of_separate limit debug sched (List.replicate n ThreadLocalIntents.init)
      (CommitJob.reset s0) [] (by simpa using hk)
      (fun t ht => by
        rw [(List.mem_replicate.mp ht).2]
        exact ThreadLocalIntents.init_inv)
      hR0 (by rw [hb0]; simpa using hgood) (by rw [hb0]; simpa using hsep)
  rw [hb0] at hperm
  simp only [List.nil_append] at hperm
  rw [← hR.1] at hperm
  refine ⟨bufs, s, hrun, hperm, fun hall => ?_⟩
  rw [hempty bufs hall, List.append_nil] at hperm
  have hsymm : ∀ {a b : WriteIntent}, a.overlaps b = false → b.overlaps a = false := by
    intro a b h
    unfold WriteIntent.overlaps at h ⊢
    simp only [decide_eq_false_iff_not] at h ⊢
    exact fun hc => h ⟨hc.2, hc.1⟩
  refine ⟨hperm, (hperm.pairwise_iff hsymm).mpr hsep, fun a => ?_⟩
  unfold Covered
  constructor
  · rintro ⟨w, hw, h⟩
    exact ⟨w, hperm.mem_iff.mp hw, h⟩
  · rintro ⟨w, hw, h⟩
    exact ⟨w, hperm.mem_iff.mpr hw, h⟩

/-- C16 at an interleaving of two threads that push two ranges each. -/
theorem concurrent_flush_is_union_witness :
    (∀ e ∈ exSchedule, e.1 < 2) ∧
    (∀ w ∈ pushedBy exSchedule, w.Proper) ∧
    (pushedBy exSchedule).Pairwise (fun a b => a.overlaps b = false) ∧
    ∃ bufs s,
      runThreads (specHeader 100 false) exSchedule
        (List.replicate 2 ThreadLocalIntents.init, CommitJob.reset exNoted) = some (bufs, s) ∧
      List.Perm (s.commitJob._wi._intents ++ buffered bufs) (pushedBy exSchedule) ∧
      ((∀ t ∈ bufs, t.n = 0) →
        List.Perm s.commitJob._wi._intents (pushedBy exSchedule) ∧
        s.commitJob._wi._intents.Pairwise (fun a b => a.overlaps b = false) ∧
        ∀ a, Covered s.commitJob._wi._intents a ↔ Covered (pushedBy exSchedule) a) :=
  ⟨by decide, by decide, by decide,
   concurrent_flush_is_union 100 false 2 exSchedule exNoted (by decide) (by decide) (by decide)⟩

end Dur
